import Mathlib

set_option maxHeartbeats 1000000
set_option maxRecDepth 10000

/-!
Verification development for the AgoraMarketplace repository.

The Lean definitions below are a shallow embedding of the core logic of the
repository: the outbox engine of src/hooks/useAgoraData.ts, the singleton
WebSocket connection manager and pool of src/utils/nostr.ts, the tolerant
event parser of src/hooks/useAgoraData.ts, and the bech32 key encoding of
src/utils/auth.ts.  External runtime facilities (JSON.parse, the URL regex,
Math.random, the signer) are passed in as explicit parameters or oracles.
-/

namespace Agora

/-- Wire-level Nostr event record (type NostrEvent in useAgoraData.ts). -/
structure NostrEvent where
  id : String
  pubkey : String
  created_at : Nat
  kind : Nat
  content : String
  tags : List (List String)
deriving DecidableEq, Repr

namespace Outbox

/-- Status of an outbox item (type OutboxStatus in useAgoraData.ts). -/
inductive OutboxStatus
  | queued
  | publishing
  | published
  | failed
deriving DecidableEq, Repr

/-- Discriminant of the OutboxItem tagged union (field `type`). -/
inductive OutboxKind
  | agora_event
  | comment
deriving DecidableEq, Repr

/-- Payload of an OutboxEventItem. -/
structure EventPayload where
  name : String
  startTimestamp : Int
  location : String
  description : String
  image_url : String
  landingPageUrl : String
deriving DecidableEq, Repr

/-- Payload of an OutboxCommentItem. -/
structure CommentPayload where
  eventId : String
  eventPubkey : Option String
  content : String
deriving DecidableEq, Repr

/-- Union of the two payload shapes. -/
inductive OutboxPayload
  | event (p : EventPayload)
  | comment (p : CommentPayload)
deriving DecidableEq, Repr

/-- Outbox item (OutboxEventItem / OutboxCommentItem in useAgoraData.ts).
Timestamps are unix seconds. -/
structure OutboxItem where
  id : String
  created_at : Nat
  type : OutboxKind
  payload : OutboxPayload
  status : OutboxStatus
  attempts : Nat
  nextAttemptAt : Nat
  lastError : Option String
  publishedEventId : Option String
deriving DecidableEq, Repr

/-- Retry backoff of the outbox (computeBackoffSeconds in useAgoraData.ts):
2 * 2^attempts seconds, exponent clamped at 10, capped at 5 minutes. -/
def computeBackoffSeconds (attempts : Nat) : Nat :=
  let base := 2 ^ (min 10 (max 0 attempts)) * 2
  min (5 * 60) base

/-- Does `needle` occur at the head of `hay`. -/
def startsWithL : List Char → List Char → Bool
  | _, [] => true
  | [], _ :: _ => false
  | c :: cs, d :: ds => c == d && startsWithL cs ds

/-- Substring containment on character lists. -/
def containsL : List Char → List Char → Bool
  | [], needle => needle.isEmpty
  | hay@(_ :: t), needle => startsWithL hay needle || containsL t needle

/-- ASCII lowercasing of one character (the error messages classified by
the outbox are ASCII, so this matches JS toLowerCase on them). -/
def charLower (c : Char) : Char :=
  if 'A' ≤ c ∧ c ≤ 'Z' then Char.ofNat (c.toNat + 32) else c

/-- JS `msg.toLowerCase().includes(pat)` as used by the outbox error classifier. -/
def lowerContains (msg pat : String) : Bool :=
  containsL (msg.toList.map charLower) pat.toList

/-- The `isNoKey` heuristic of attemptPublishOne in useAgoraData.ts. -/
def isNoKeyError (msg : String) : Bool :=
  lowerContains msg "no private key" || lowerContains msg "private key not found" ||
    lowerContains msg "nos2x"

/-- The `isConnection` heuristic of attemptPublishOne in useAgoraData.ts. -/
def isConnectionError (msg : String) : Bool :=
  lowerContains msg "websocket" || lowerContains msg "connect" || lowerContains msg "relay" ||
    lowerContains msg "network" || lowerContains msg "timeout"

/-- Result of the publish/sign step of one attempt, as seen by the catch
block: either a signed event id (possibly absent or empty) or a thrown
error message. -/
inductive PublishResult
  | ok (id : Option String)
  | err (msg : String)

/-- Error message thrown when a publish returns no event id. -/
def noIdMessage (k : OutboxKind) : String :=
  match k with
  | .agora_event => "Publish did not return an event id"
  | .comment => "Comment publish did not return an id"

/-- Result of one attempt: the updated item plus the no-signer toast
throttle state (the lastNoKeyToastAt ref, milliseconds) and whether a
user-facing toast was shown. -/
structure AttemptOutcome where
  item : OutboxItem
  lastNoKeyToastAt : Nat
  toastShown : Bool
deriving DecidableEq, Repr

/-- The catch block of attemptPublishOne: classify the error message and
update the item.  `now` is unix seconds, `nowMs` is Date.now() in ms. -/
def classifyFailure (now nowMs lastNoKeyToastAt : Nat) (item : OutboxItem)
    (attempts : Nat) (msg : String) : AttemptOutcome :=
  let backoff := computeBackoffSeconds attempts
  if isNoKeyError msg then
    let fire := lastNoKeyToastAt + 10000 < nowMs
    { item := { item with
                  status := .queued, attempts := attempts, lastError := some msg,
                  nextAttemptAt := now + 5 * 60 },
      lastNoKeyToastAt := if fire then nowMs else lastNoKeyToastAt,
      toastShown := fire }
  else if isConnectionError msg then
    { item := { item with
                  status := .queued, attempts := attempts, lastError := some msg,
                  nextAttemptAt := now + backoff },
      lastNoKeyToastAt := lastNoKeyToastAt,
      toastShown := false }
  else
    { item := { item with
                  status := .failed, attempts := attempts, lastError := some msg,
                  nextAttemptAt := now + backoff },
      lastNoKeyToastAt := lastNoKeyToastAt,
      toastShown := false }

/-- One publish attempt for one outbox item (attemptPublishOne in
useAgoraData.ts).  The signing/publishing side effect is summarized by
`res`; an absent or empty returned id throws inside the try and is caught
by the same classifier. -/
def attemptPublishOne (now nowMs lastNoKeyToastAt : Nat) (res : PublishResult)
    (item : OutboxItem) : AttemptOutcome :=
  let attempts := item.attempts + 1
  match res with
  | .ok oid =>
    match oid with
    | some pid =>
      if pid = "" then classifyFailure now nowMs lastNoKeyToastAt item attempts (noIdMessage item.type)
      else
        { item := { item with
                      status := .published, attempts := attempts,
                      publishedEventId := some pid, nextAttemptAt := now },
          lastNoKeyToastAt := lastNoKeyToastAt,
          toastShown := false }
    | none => classifyFailure now nowMs lastNoKeyToastAt item attempts (noIdMessage item.type)
  | .err msg => classifyFailure now nowMs lastNoKeyToastAt item attempts msg

/-- Item enqueued by handleCreateEvent: status queued, attempts 0,
nextAttemptAt now. -/
def mkEventOutboxItem (localId : String) (now : Nat) (p : EventPayload) : OutboxItem :=
  { id := localId, created_at := now, type := .agora_event, payload := .event p,
    status := .queued, attempts := 0, nextAttemptAt := now,
    lastError := none, publishedEventId := none }

/-- Item enqueued by handlePostComment: status queued, attempts 0,
nextAttemptAt now. -/
def mkCommentOutboxItem (localId : String) (now : Nat) (p : CommentPayload) : OutboxItem :=
  { id := localId, created_at := now, type := .comment, payload := .comment p,
    status := .queued, attempts := 0, nextAttemptAt := now,
    lastError := none, publishedEventId := none }

/-- Worker eligibility test: only queued items whose nextAttemptAt has
elapsed are attempted. -/
def dueQueued (now : Nat) (it : OutboxItem) : Bool :=
  it.status == .queued && decide (it.nextAttemptAt ≤ now)

/-- Sort key used by the worker pass: ascending created_at. -/
def byCreatedAt (a b : OutboxItem) : Prop := a.created_at ≤ b.created_at

instance : DecidableRel byCreatedAt := fun a b => Nat.decLe a.created_at b.created_at

/-- The per-item loop of the worker pass: attempt each due queued item in
order, threading the toast throttle state, and collect the updates keyed
by item id (the updatedById map). -/
def collectUpdates (now nowMs : Nat) (oracle : OutboxItem → PublishResult) :
    List OutboxItem → Nat → List (String × OutboxItem) × Nat
  | [], lastAt => ([], lastAt)
  | it :: rest, lastAt =>
    if dueQueued now it then
      let outc := attemptPublishOne now nowMs lastAt (oracle it) it
      let (us, l) := collectUpdates now nowMs oracle rest outc.lastNoKeyToastAt
      ((it.id, outc.item) :: us, l)
    else collectUpdates now nowMs oracle rest lastAt

/-- One uninterrupted worker pass (the outbox effect in useAgoraData.ts):
runs only if some queued item is due; processes items oldest-created-first;
maps the updates back into the original list by id; and saves the outbox
with every published item filtered out. -/
def workerPass (now nowMs : Nat) (oracle : OutboxItem → PublishResult)
    (items : List OutboxItem) (lastNoKeyToastAt : Nat) : List OutboxItem × Nat :=
  if items.any (dueQueued now) then
    let sorted := List.insertionSort byCreatedAt items
    let ul := collectUpdates now nowMs oracle sorted lastNoKeyToastAt
    if ul.1.isEmpty then (items, ul.2)
    else
      let next := items.map (fun p => (ul.1.lookup p.id).getD p)
      (next.filter (fun x => !(x.status == .published)), ul.2)
  else (items, lastNoKeyToastAt)

/-- Read-cycle reconciliation filter of useAgoraData.ts: keep an item
unless it is an agora_event whose publishedEventId was observed among the
ids of the live relay batch. -/
def keepAfterReadCycle (remoteIds : List String) (it : OutboxItem) : Bool :=
  if it.type == .agora_event then
    match it.publishedEventId with
    | none => true
    | some pid => if pid = "" then true else !(remoteIds.contains pid)
  else true

/-- The read-cycle outbox prune of useAgoraData.ts. -/
def pruneConfirmed (remoteIds : List String) (items : List OutboxItem) : List OutboxItem :=
  items.filter (keepAfterReadCycle remoteIds)

/-- Trace of no-signer toasts produced by repeated no-signer failures at
the given Date.now() instants, threading the lastNoKeyToastAt ref through
classifyFailure exactly as the code does. -/
def noKeyToastTimes (item : OutboxItem) (msg : String) : List Nat → Nat → List Nat
  | [], _ => []
  | t :: ts, lastAt =>
    let o := classifyFailure 0 t lastAt item (item.attempts + 1) msg
    if o.toastShown then t :: noKeyToastTimes item msg ts o.lastNoKeyToastAt
    else noKeyToastTimes item msg ts o.lastNoKeyToastAt

/-- Concrete event payload used by witnesses. -/
def wPayloadE : EventPayload :=
  { name := "Potluck", startTimestamp := 1700000000, location := "Park",
    description := "", image_url := "", landingPageUrl := "" }

/-- Concrete comment payload used by witnesses. -/
def wPayloadC : CommentPayload :=
  { eventId := "evt1", eventPubkey := none, content := "hi" }

/-- Concrete queued outbox item used by witnesses. -/
def wItem : OutboxItem :=
  { id := "w1", created_at := 5, type := .agora_event, payload := .event wPayloadE,
    status := .queued, attempts := 0, nextAttemptAt := 5, lastError := none,
    publishedEventId := none }

/-- Concrete failed outbox item used by witnesses. -/
def wFailed : OutboxItem := { wItem with status := .failed }

/-- Concrete queued item carrying a relay-confirmed published id. -/
def wPub : OutboxItem := { wItem with publishedEventId := some "evt1" }

/-- Publish oracle that always succeeds with event id evt1. -/
def c2Oracle : OutboxItem → PublishResult := fun _ => .ok (some "evt1")

/-- Outcome of one terminal failure of wItem, used by witnesses. -/
def wBoom : OutboxItem :=
  { wItem with status := .failed, attempts := 1, nextAttemptAt := 9, lastError := some "boom" }

end Outbox

namespace Conn

/-- WebSocket readyState constants. -/
inductive WsReadyState
  | CONNECTING
  | OPEN
  | CLOSING
  | CLOSED
deriving DecidableEq, Repr

/-- Relay rotation list (DEFAULT_RELAYS in nostr.ts). -/
def DEFAULT_RELAYS : List String :=
  ["wss://relay.nostr.band/",
   "wss://relay.nostr.watch/",
   "wss://relay.nostr.pet/",
   "wss://relay.nostr.h3z.io/",
   "wss://nostr-pub.wellorder.net/",
   "wss://nostr.wine/",
   "wss://nostr.bitcoiner.social/"]

/-- The module-level singleton connection state of nostr.ts: the single ws
slot (none, or its readyState), the rotation index, the retry counter, the
manual-close flag and the generation counter. -/
structure ConnState where
  ws : Option WsReadyState
  currentRelay : Nat
  retryCount : Nat
  isManuallyClosed : Bool
  generation : Nat
deriving DecidableEq, Repr

/-- connectToWebSocket in nostr.ts: clears the manual-close flag, is a
no-op when the socket is already OPEN or CONNECTING, and otherwise
increments the generation and constructs a new socket (which starts in
CONNECTING). -/
def connectToWebSocket (s : ConnState) : ConnState :=
  let s1 := if s.isManuallyClosed then { s with isManuallyClosed := false } else s
  match s1.ws with
  | some st =>
    if st = .OPEN ∨ st = .CONNECTING then s1
    else { s1 with generation := s1.generation + 1, ws := some .CONNECTING }
  | none => { s1 with generation := s1.generation + 1, ws := some .CONNECTING }

/-- getBackoffDelay in nostr.ts: min(30000, 1000 * 2^attempt) plus a
jitter of Math.random() times 40 percent of it.  The random draw is the
parameter u with 0 <= u < 1; milliseconds as rationals. -/
def getBackoffDelay (attempt : Nat) (u : ℚ) : ℚ :=
  let exp : ℚ := min 30000 (1000 * 2 ^ attempt)
  exp + u * (exp * (2 / 5))

/-- handleWebSocketFailure in nostr.ts: suppressed when manually closed or
when the firing generation is stale; otherwise rotates the relay,
increments the retry counter and schedules a reconnect after
getBackoffDelay with the attempt clamped at 6.  Returns the new state and
the scheduled delay, if any. -/
def handleWebSocketFailure (s : ConnState) (myGen : Nat) (u : ℚ) : ConnState × Option ℚ :=
  if s.isManuallyClosed then (s, none)
  else if myGen ≠ s.generation then (s, none)
  else
    let s1 := { s with
                  currentRelay := (s.currentRelay + 1) % DEFAULT_RELAYS.length,
                  retryCount := s.retryCount + 1 }
    (s1, some (getBackoffDelay (min s1.retryCount 6) u))

/-- The pre-jitter delay as a function of the retry counter, with the
exponent clamp applied by handleWebSocketFailure. -/
def dPre (r : Nat) : ℚ := min 30000 (1000 * 2 ^ min r 6)

/-- Concrete connection states used by witnesses. -/
def wOpenConn : ConnState :=
  { ws := some .OPEN, currentRelay := 1, retryCount := 0, isManuallyClosed := false,
    generation := 3 }

/-- Concrete idle connection state used by witnesses. -/
def wIdleConn : ConnState :=
  { ws := none, currentRelay := 0, retryCount := 0, isManuallyClosed := false, generation := 0 }

/-- Concrete failing connection state used by witnesses. -/
def wConn : ConnState :=
  { ws := some .CLOSED, currentRelay := 0, retryCount := 2, isManuallyClosed := false,
    generation := 4 }

end Conn

namespace Pool

/-- Inbound relay frames as routed by handleMessage in nostr.ts: the
second array element is used as the routing key (for NOTICE frames that is
the notice text). -/
inductive InMsg
  | event (subId : String) (ev : NostrEvent)
  | eose (subId : String)
  | notice (text : String)
deriving DecidableEq, Repr

/-- The routing key handleMessage reads from msg[1]. -/
def InMsg.routeKey : InMsg → String
  | .event s _ => s
  | .eose s => s
  | .notice t => t

/-- Outbound frames sent over the socket. -/
inductive OutMsg
  | req (subId : String)
  | close (subId : String)
  | eventPub (ev : NostrEvent)
deriving DecidableEq, Repr

/-- Frame delivery to the handler registered by pool.req for subId: each
routed frame is pushed to the consumer queue in arrival order; on an EOSE
frame the subscription auto-closes (sending a CLOSE frame when the socket
is open, then removing the handler so later frames are dropped).  Returns
(frames pushed to the consumer, frames sent on the socket). -/
def deliverLoop (subId : String) (wsOpen : Bool) : List InMsg → List InMsg × List OutMsg
  | [] => ([], [])
  | m :: rest =>
    if m.routeKey ≠ subId then deliverLoop subId wsOpen rest
    else
      match m with
      | .eose _ => ([m], if wsOpen then [.close subId] else [])
      | _ =>
        let (ys, os) := deliverLoop subId wsOpen rest
        (m :: ys, os)

/-- pool.req in nostr.ts, run to completion: if the bounded wait for an
open connection fails, a synthetic end marker EOSE frame is pushed so the
consumer does not hang and the handler is removed (no CLOSE frame is sent
because the socket is not open); otherwise the REQ frame is sent and the
inbound frames are delivered until the EOSE auto-close. -/
def runReq (subId : String) (connOpens : Bool) (inbound : List InMsg) :
    List InMsg × List OutMsg :=
  if connOpens then
    let (ys, os) := deliverLoop subId true inbound
    (ys, OutMsg.req subId :: os)
  else
    ([.eose subId], [])

/-- Number of EVENT frames in a pushed sequence (the items the consumer
yields). -/
def eventCount (ys : List InMsg) : Nat :=
  (ys.filter (fun m => match m with | .event _ _ => true | _ => false)).length

/-- Concrete inbound event frame used by witnesses. -/
def wEv : NostrEvent :=
  { id := "e9", pubkey := "pk", created_at := 1, kind := 31923, content := "x", tags := [] }

end Pool

namespace Parse

/-- JSON values as produced by JSON.parse. -/
inductive Json
  | null
  | bool (b : Bool)
  | num (q : ℚ)
  | str (s : String)
  | arr (elems : List Json)
  | obj (fields : List (String × Json))

/-- JS truthiness of a JSON value. -/
def jsTruthy : Json → Bool
  | .null => false
  | .bool b => b
  | .num q => !(q == 0)
  | .str s => !(s == "")
  | .arr _ => true
  | .obj _ => true

/-- Does `typeof v === "object"` hold for the value (null, arrays and
objects). -/
def typeofObject : Json → Bool
  | .null => true
  | .arr _ => true
  | .obj _ => true
  | _ => false

/-- Property access `v.k` (undefined when absent or not an object). -/
def jsonField (j : Json) (k : String) : Option Json :=
  match j with
  | .obj fields => fields.lookup k
  | _ => none

/-- Truthiness of a possibly-undefined value. -/
def optTruthy : Option Json → Bool
  | none => false
  | some j => jsTruthy j

/-- JS `a || b`. -/
def jsOr (a b : Option Json) : Option Json :=
  if optTruthy a then a else b

/-- `typeof x === "number" ? x : undefined`. -/
def asNum : Option Json → Option ℚ
  | some (.num q) => some q
  | _ => none

/-- `typeof x === "string" ? x : undefined`. -/
def asStr : Option Json → Option String
  | some (.str s) => some s
  | _ => none

/-- The display-shaped record produced by parseAgoraEvent (type AgoraEvent
in useAgoraData.ts, local flags omitted).  Fields built with JS `||`
chains keep the dynamic JSON value. -/
structure AgoraParsed where
  id : String
  pubkey : String
  created_at : Nat
  title : Json
  description : Json
  start : Option ℚ
  endTime : Option ℚ
  location : Option String
  url : Option String
  image_url : Option String
  raw : NostrEvent

/-- Whitespace test used by trim and by blank-line filtering. -/
def isWsChar (c : Char) : Bool := c.isWhitespace

/-- JS String.trim on a character list. -/
def trimL (cs : List Char) : List Char :=
  ((cs.dropWhile isWsChar).reverse.dropWhile isWsChar).reverse

/-- Split on newline characters (the split of raw.split(/\r?\n/); the
carriage returns are removed by the per-line trim just as in the code). -/
def splitOnNl : List Char → List (List Char)
  | [] => [[]]
  | c :: cs =>
    match splitOnNl cs with
    | [] => [[]]
    | h :: t => if c = '\n' then [] :: h :: t else (c :: h) :: t

/-- The nonempty trimmed lines of the fallback path:
raw.split(newline).map(trim).filter(Boolean). -/
def linesOf (raw : List Char) : List (List Char) :=
  ((splitOnNl raw).map trimL).filter (fun l => !l.isEmpty)

/-- join("\n") of the remaining lines. -/
def joinNl (ls : List (List Char)) : List Char :=
  List.intercalate ['\n'] ls

/-- The non-JSON fallback branch of parseAgoraEvent: first trimmed
nonblank line (cut to 140 chars) becomes the title, the remaining lines
joined by newlines (cut to 4000 chars) the description, plus a best-effort
URL match; empty content yields null.  `um` is the URL-regex oracle. -/
def fallbackParse (um : List Char → Option (List Char)) (ev : NostrEvent)
    (raw : List Char) : Option AgoraParsed :=
  match linesOf raw with
  | [] => none
  | l0 :: restL =>
    some { id := ev.id, pubkey := ev.pubkey, created_at := ev.created_at,
           title := .str (String.mk (l0.take 140)),
           description := .str (String.mk ((joinNl restL).take 4000)),
           start := none, endTime := none, location := none,
           url := (um raw).map String.mk, image_url := none, raw := ev }

/-- The structured branch of parseAgoraEvent, extracting aliased fields
from a truthy JSON object value. -/
def structuredParse (ev : NostrEvent) (v : Json) : AgoraParsed :=
  { id := ev.id, pubkey := ev.pubkey, created_at := ev.created_at,
    title := (jsOr (jsOr (jsonField v "title") (jsonField v "name"))
      (some (.str "(Untitled event)"))).getD .null,
    description := (jsOr (jsOr (jsonField v "description") (jsonField v "summary"))
      (some (.str ""))).getD .null,
    start := (asNum (jsonField v "start") <|> asNum (jsonField v "startTimestamp")) <|>
      asNum (jsonField v "start_at"),
    endTime := asNum (jsonField v "end"),
    location := asStr (jsonField v "location"),
    url := asStr (jsonField v "url") <|> asStr (jsonField v "landingPageUrl"),
    image_url := asStr (jsonField v "image_url") <|> asStr (jsonField v "imageUrl"),
    raw := ev }

/-- parseAgoraEvent in useAgoraData.ts.  `jp` is the safeJsonParse oracle
(JSON.parse, null on failure), `um` the URL-regex oracle. -/
def parseAgoraEvent (jp : List Char → Option Json) (um : List Char → Option (List Char))
    (ev : NostrEvent) : Option AgoraParsed :=
  let raw := trimL ev.content.toList
  if raw.isEmpty then none
  else
    match jp raw with
    | some v =>
      if jsTruthy v && typeofObject v then some (structuredParse ev v)
      else fallbackParse um ev raw
    | none => fallbackParse um ev raw

/-- Concrete inbound record with non-JSON content, used by witnesses. -/
def wNostrEv : NostrEvent :=
  { id := "e1", pubkey := "pk", created_at := 7, kind := 31923,
    content := "Hello\nWorld", tags := [] }

end Parse

namespace Bech32

/-- The bech32 data charset of auth.ts. -/
def BECH32_CHARSET : List Char := "qpzry9x8gf2tvdw0s3jn54khce6mua7l".toList

/-- The bech32 generator constants of auth.ts. -/
def GENERATORS : List Nat := [0x3b6a57b2, 0x26508e6d, 0x1ea119fa, 0x3d4233dd, 0x2a1462b3]

/-- First index of a character in a list (the BECH32_CHARSET_REV map). -/
def charIndex (c : Char) : List Char → Option Nat
  | [] => none
  | d :: ds => if d = c then some 0 else (charIndex c ds).map (· + 1)

/-- One iteration of the bech32Polymod loop of auth.ts. -/
def polymodStep (chk v : Nat) : Nat :=
  let top := chk >>> 25
  (List.range 5).foldl
    (fun c i => if (top >>> i) &&& 1 = 1 then c ^^^ GENERATORS.getD i 0 else c)
    (((chk &&& 0x1ffffff) <<< 5) ^^^ v)

/-- bech32Polymod of auth.ts. -/
def bech32Polymod (values : List Nat) : Nat := values.foldl polymodStep 1

/-- bech32HrpExpand of auth.ts. -/
def bech32HrpExpand (hrp : List Char) : List Nat :=
  hrp.map (fun c => c.toNat >>> 5) ++ [0] ++ hrp.map (fun c => c.toNat &&& 31)

/-- bech32CreateChecksum of auth.ts. -/
def bech32CreateChecksum (hrp : List Char) (data : List Nat) : List Nat :=
  let values := bech32HrpExpand hrp ++ data ++ [0, 0, 0, 0, 0, 0]
  let m := bech32Polymod values ^^^ 1
  (List.range 6).map (fun p => (m >>> (5 * (5 - p))) &&& 31)

/-- bech32VerifyChecksum of auth.ts. -/
def bech32VerifyChecksum (hrp : List Char) (data : List Nat) : Bool :=
  bech32Polymod (bech32HrpExpand hrp ++ data) == 1

/-- The inner `while bits >= toBits` emission loop of convertBits: emits
5-or-8-bit words off the top of the accumulator.  `fuel` bounds the loop
(the caller passes the current bit count, which suffices since every
iteration removes toBits >= 1 bits). -/
def emitLoop (toBits maxv : Nat) : Nat → Nat → Nat → List Nat × Nat
  | 0, _, bits => ([], bits)
  | fuel + 1, acc, bits =>
    if toBits ≤ bits then
      let r := emitLoop toBits maxv fuel acc (bits - toBits)
      (((acc >>> (bits - toBits)) &&& maxv) :: r.1, r.2)
    else ([], bits)

/-- The main loop of convertBits over the input values, returning the
emitted words together with the final accumulator and pending bit count. -/
def convertBitsGo (fromBits toBits maxv : Nat) :
    List Nat → Nat → Nat → Except String (List Nat × Nat × Nat)
  | [], acc, bits => .ok ([], acc, bits)
  | v :: vs, acc, bits =>
    if v >>> fromBits ≠ 0 then .error "convertBits: invalid value"
    else
      let acc1 := (acc <<< fromBits) ||| v
      let (ws, bits1) := emitLoop toBits maxv (bits + fromBits) acc1 (bits + fromBits)
      match convertBitsGo fromBits toBits maxv vs acc1 bits1 with
      | .error e => .error e
      | .ok (rest, accF, bitsF) => .ok (ws ++ rest, accF, bitsF)

/-- convertBits of auth.ts (8-bit bytes to and from 5-bit words). -/
def convertBits (data : List Nat) (fromBits toBits : Nat) (pad : Bool) :
    Except String (List Nat) :=
  let maxv := (1 <<< toBits) - 1
  match convertBitsGo fromBits toBits maxv data 0 0 with
  | .error e => .error e
  | .ok (ret, acc, bits) =>
    if pad then
      if bits ≠ 0 then .ok (ret ++ [(acc <<< (toBits - bits)) &&& maxv]) else .ok ret
    else if fromBits ≤ bits then .error "convertBits: excess padding"
    else if (acc <<< (toBits - bits)) &&& maxv ≠ 0 then .error "convertBits: non-zero padding"
    else .ok ret

/-- bech32Encode of auth.ts. -/
def bech32Encode (hrp : List Char) (payloadBytes : List Nat) : Except String (List Char) :=
  match convertBits payloadBytes 8 5 true with
  | .error e => .error e
  | .ok dataWords =>
    let checksum := bech32CreateChecksum hrp dataWords
    .ok (hrp ++ ['1'] ++ (dataWords ++ checksum).map (fun v => BECH32_CHARSET.getD v ' '))

/-- Last index of a character in a list (String.lastIndexOf). -/
def lastIdxOf (c : Char) : List Char → Option Nat
  | [] => none
  | d :: ds =>
    match lastIdxOf c ds with
    | some i => some (i + 1)
    | none => if d = c then some 0 else none

/-- The character-decoding loop of bech32Decode. -/
def mapCharset : List Char → Except String (List Nat)
  | [] => .ok []
  | c :: cs =>
    match charIndex c BECH32_CHARSET with
    | none => .error "bech32: invalid character"
    | some v =>
      match mapCharset cs with
      | .error e => .error e
      | .ok vs => .ok (v :: vs)

/-- bech32Decode of auth.ts: lowercase and trim, split at the last '1',
decode the data part through the charset, verify the checksum, and convert
the payload words (all but the final 6 checksum words) back to bytes. -/
def bech32Decode (bech : List Char) : Except String (List Char × List Nat) :=
  let s := (Parse.trimL bech).map Char.toLower
  match lastIdxOf '1' s with
  | none => .error "bech32: invalid separator position"
  | some pos =>
    if pos < 1 ∨ s.length < pos + 7 then .error "bech32: invalid separator position"
    else
      let hrp := s.take pos
      let dataPart := s.drop (pos + 1)
      match mapCharset dataPart with
      | .error e => .error e
      | .ok dataWords =>
        if ¬ bech32VerifyChecksum hrp dataWords then .error "bech32: invalid checksum"
        else
          let payloadWords := dataWords.take (dataWords.length - 6)
          match convertBits payloadWords 5 8 false with
          | .error e => .error e
          | .ok bytes => .ok (hrp, bytes)

/-- The character list of the "nsec" human-readable prefix. -/
def nsecChars : List Char := "nsec".toList

/-- encodeNsec of auth.ts, in-repo bech32 fallback path (the code prefers
the external nostr-tools nip19 helper when that library exposes one; the
fallback is the algorithm owned by this repository). -/
def encodeNsec (sk : List Nat) : Except String (List Char) :=
  bech32Encode nsecChars sk

/-- Hex digit test of the raw-hex convenience branch of decodeNsecToBytes. -/
def isHexDigitChar (c : Char) : Bool :=
  c.isDigit || ('a' ≤ c && c ≤ 'f') || ('A' ≤ c && c ≤ 'F')

/-- The /^[0-9a-fA-F]{64}$/ test of decodeNsecToBytes. -/
def isHex64 (s : List Char) : Bool :=
  s.length == 64 && s.all isHexDigitChar

/-- Value of one hex digit. -/
def hexDigitVal (c : Char) : Nat :=
  if c.isDigit then c.toNat - '0'.toNat
  else if 'a' ≤ c && c ≤ 'f' then c.toNat - 'a'.toNat + 10
  else if 'A' ≤ c && c ≤ 'F' then c.toNat - 'A'.toNat + 10
  else 0

/-- hexToBytes pairing loop of auth.ts. -/
def hexPairs : List Char → List Nat
  | c1 :: c2 :: rest => (16 * hexDigitVal c1 + hexDigitVal c2) :: hexPairs rest
  | _ => []

/-- decodeNsecToBytes of auth.ts, in-repo bech32 fallback path: accepts a
raw 64-hex private key as a convenience, otherwise bech32-decodes and
requires the nsec prefix and a 32-byte payload. -/
def decodeNsecToBytes (value : List Char) : Except String (List Nat) :=
  let input := Parse.trimL value
  if isHex64 input then .ok (hexPairs input)
  else
    match bech32Decode input with
    | .error e => .error e
    | .ok (hrp, data) =>
      if hrp ≠ nsecChars then .error "Not an nsec"
      else if data.length ≠ 32 then .error "Invalid nsec length"
      else .ok data

/-- The conditional generator xors of one polymod iteration, written as a
closed form: bit i of the top five bits selects GENERATORS[i]. -/
def polymodG (top : Nat) : Nat :=
  (if (top >>> 0) &&& 1 = 1 then GENERATORS.getD 0 0 else 0) ^^^
  ((if (top >>> 1) &&& 1 = 1 then GENERATORS.getD 1 0 else 0) ^^^
  ((if (top >>> 2) &&& 1 = 1 then GENERATORS.getD 2 0 else 0) ^^^
  ((if (top >>> 3) &&& 1 = 1 then GENERATORS.getD 3 0 else 0) ^^^
  (if (top >>> 4) &&& 1 = 1 then GENERATORS.getD 4 0 else 0))))

/-- The six 5-bit chunks of a 30-bit checksum value, most significant
first: the word layout emitted by bech32CreateChecksum. -/
def chunks6 (m : Nat) : List Nat :=
  (List.range 6).map (fun p => (m >>> (5 * (5 - p))) &&& 31)

/-- The w-bit big-endian bit vector of a natural number. -/
def natBits : Nat → Nat → List Bool
  | 0, _ => []
  | w + 1, x => x.testBit w :: natBits w x

/-- Value of a big-endian bit vector. -/
def bitsToNat (bs : List Bool) : Nat :=
  bs.foldl (fun a b => 2 * a + (if b then 1 else 0)) 0

/-- An encoding of `sk` whose 30-bit checksum value has bit `k` flipped,
re-rendered through the charset: the corrupted textual key of the checksum
half of the round-trip property. -/
def corruptChecksum (sk : List Nat) (k : Nat) : List Char :=
  match convertBits sk 8 5 true with
  | .error _ => []
  | .ok dataWords =>
    let m := bech32Polymod (bech32HrpExpand nsecChars ++ dataWords ++ [0, 0, 0, 0, 0, 0]) ^^^ 1
    let m1 := m ^^^ (1 <<< k)
    let cs := (List.range 6).map (fun p => (m1 >>> (5 * (5 - p))) &&& 31)
    nsecChars ++ ['1'] ++ (dataWords ++ cs).map (fun v => BECH32_CHARSET.getD v ' ')

/-- Concrete 32-byte scalar used by the witness. -/
def wSk : List Nat := List.range 32

end Bech32

/-! ### Helper lemmas about the outbox engine -/

namespace Outbox

theorem classifyFailure_noKey (now nowMs lastAt : Nat) (item : OutboxItem) (att : Nat)
    (msg : String) (h : isNoKeyError msg = true) :
    classifyFailure now nowMs lastAt item att msg =
      { item := { item with
                    status := .queued, attempts := att, lastError := some msg,
                    nextAttemptAt := now + 5 * 60 },
        lastNoKeyToastAt := if lastAt + 10000 < nowMs then nowMs else lastAt,
        toastShown := decide (lastAt + 10000 < nowMs) } := by
  simp [classifyFailure, h]

theorem classifyFailure_conn (now nowMs lastAt : Nat) (item : OutboxItem) (att : Nat)
    (msg : String) (h1 : isNoKeyError msg = false) (h2 : isConnectionError msg = true) :
    classifyFailure now nowMs lastAt item att msg =
      { item := { item with
                    status := .queued, attempts := att, lastError := some msg,
                    nextAttemptAt := now + computeBackoffSeconds att },
        lastNoKeyToastAt := lastAt,
        toastShown := false } := by
  simp [classifyFailure, h1, h2]

theorem classifyFailure_terminal (now nowMs lastAt : Nat) (item : OutboxItem) (att : Nat)
    (msg : String) (h1 : isNoKeyError msg = false) (h2 : isConnectionError msg = false) :
    classifyFailure now nowMs lastAt item att msg =
      { item := { item with
                    status := .failed, attempts := att, lastError := some msg,
                    nextAttemptAt := now + computeBackoffSeconds att },
        lastNoKeyToastAt := lastAt,
        toastShown := false } := by
  simp [classifyFailure, h1, h2]

theorem classifyFailure_status_ne_publishing (now nowMs lastAt : Nat) (item : OutboxItem)
    (att : Nat) (msg : String) :
    (classifyFailure now nowMs lastAt item att msg).item.status ≠ .publishing := by
  rcases Bool.eq_false_or_eq_true (isNoKeyError msg) with h1 | h1
  · rw [classifyFailure_noKey _ _ _ _ _ _ h1]; simp
  · rcases Bool.eq_false_or_eq_true (isConnectionError msg) with h2 | h2
    · rw [classifyFailure_conn _ _ _ _ _ _ h1 h2]; simp
    · rw [classifyFailure_terminal _ _ _ _ _ _ h1 h2]; simp

theorem attemptPublishOne_status_ne_publishing (now nowMs lastAt : Nat) (res : PublishResult)
    (item : OutboxItem) :
    (attemptPublishOne now nowMs lastAt res item).item.status ≠ .publishing := by
  rcases res with oid | msg
  · rcases oid with _ | pid
    · exact classifyFailure_status_ne_publishing now nowMs lastAt item (item.attempts + 1)
        (noIdMessage item.type)
    · by_cases hp : pid = ""
      · simp only [attemptPublishOne, hp, if_pos]
        exact classifyFailure_status_ne_publishing now nowMs lastAt item (item.attempts + 1)
          (noIdMessage item.type)
      · simp [attemptPublishOne, hp]
  · exact classifyFailure_status_ne_publishing now nowMs lastAt item (item.attempts + 1) msg

theorem computeBackoffSeconds_eq (n : Nat) : computeBackoffSeconds n = min 300 (2 * 2 ^ n) := by
  show min (5 * 60) (2 ^ (min 10 (max 0 n)) * 2) = min 300 (2 * 2 ^ n)
  rw [Nat.max_eq_right (Nat.zero_le n)]
  rcases le_or_lt n 10 with h | h
  · rw [Nat.min_eq_right h, Nat.mul_comm (2 ^ n) 2]
  · rw [Nat.min_eq_left (le_of_lt h)]
    have h300 : (300 : Nat) ≤ 2 * 2 ^ n :=
      calc (300 : Nat) ≤ 2 * 2 ^ 10 := by norm_num
        _ ≤ 2 * 2 ^ n := Nat.mul_le_mul_left 2 (Nat.pow_le_pow_right (by norm_num) (le_of_lt h))
    rw [Nat.min_eq_left h300]
    norm_num

theorem collectUpdates_cons_due (now nowMs : Nat) (oracle : OutboxItem → PublishResult)
    (it : OutboxItem) (rest : List OutboxItem) (lastAt : Nat) (hd : dueQueued now it = true) :
    collectUpdates now nowMs oracle (it :: rest) lastAt =
      ((it.id, (attemptPublishOne now nowMs lastAt (oracle it) it).item) ::
        (collectUpdates now nowMs oracle rest
          (attemptPublishOne now nowMs lastAt (oracle it) it).lastNoKeyToastAt).1,
       (collectUpdates now nowMs oracle rest
          (attemptPublishOne now nowMs lastAt (oracle it) it).lastNoKeyToastAt).2) := by
  rw [collectUpdates, if_pos hd]

theorem collectUpdates_cons_not_due (now nowMs : Nat) (oracle : OutboxItem → PublishResult)
    (it : OutboxItem) (rest : List OutboxItem) (lastAt : Nat) (hd : dueQueued now it = false) :
    collectUpdates now nowMs oracle (it :: rest) lastAt =
      collectUpdates now nowMs oracle rest lastAt := by
  rw [collectUpdates, if_neg (by simp [hd])]

theorem collectUpdates_mem (now nowMs : Nat) (oracle : OutboxItem → PublishResult) :
    ∀ (l : List OutboxItem) (lastAt : Nat) (p : String × OutboxItem),
      p ∈ (collectUpdates now nowMs oracle l lastAt).1 →
      ∃ it, it ∈ l ∧ dueQueued now it = true ∧ p.1 = it.id ∧
        ∃ la, p.2 = (attemptPublishOne now nowMs la (oracle it) it).item := by
  intro l
  induction l with
  | nil => intro lastAt p hp; simp [collectUpdates] at hp
  | cons it rest ih =>
    intro lastAt p hp
    rcases Bool.eq_false_or_eq_true (dueQueued now it) with hd | hd
    · rw [collectUpdates_cons_due _ _ _ _ _ _ hd] at hp
      rcases List.mem_cons.mp hp with rfl | hp
      · exact ⟨it, List.mem_cons_self _ _, hd, rfl, lastAt, rfl⟩
      · obtain ⟨jt, hj, h2, h3, h4⟩ := ih _ p hp
        exact ⟨jt, List.mem_cons_of_mem _ hj, h2, h3, h4⟩
    · rw [collectUpdates_cons_not_due _ _ _ _ _ _ hd] at hp
      obtain ⟨jt, hj, h2, h3, h4⟩ := ih lastAt p hp
      exact ⟨jt, List.mem_cons_of_mem _ hj, h2, h3, h4⟩

theorem collectUpdates_ne_nil (now nowMs : Nat) (oracle : OutboxItem → PublishResult) :
    ∀ (l : List OutboxItem) (lastAt : Nat) (it : OutboxItem), it ∈ l →
      dueQueued now it = true → (collectUpdates now nowMs oracle l lastAt).1 ≠ [] := by
  intro l
  induction l with
  | nil => intro lastAt it h; simp at h
  | cons jt rest ih =>
    intro lastAt it hmem hd
    rcases Bool.eq_false_or_eq_true (dueQueued now jt) with hj | hj
    · rw [collectUpdates_cons_due _ _ _ _ _ _ hj]; simp
    · rw [collectUpdates_cons_not_due _ _ _ _ _ _ hj]
      rcases List.mem_cons.mp hmem with rfl | hmem
      · rw [hj] at hd; cases hd
      · exact ih lastAt it hmem hd

theorem lookup_mem_of_some {β : Type} (l : List (String × β)) (k : String) (v : β)
    (h : l.lookup k = some v) : (k, v) ∈ l := by
  induction l with
  | nil => simp [List.lookup] at h
  | cons p rest ih =>
    rcases p with ⟨k1, v1⟩
    by_cases hk : k = k1
    · subst hk
      simp [List.lookup] at h
      subst h
      exact List.mem_cons_self _ _
    · have hb : (k == k1) = false := beq_eq_false_iff_ne.mpr hk
      simp only [List.lookup, hb] at h
      exact List.mem_cons_of_mem _ (ih h)

theorem lookup_none_of_not_key {β : Type} (l : List (String × β)) (k : String)
    (h : ∀ p ∈ l, p.1 ≠ k) : l.lookup k = none := by
  induction l with
  | nil => rfl
  | cons p rest ih =>
    rcases p with ⟨k1, v1⟩
    have hb : (k == k1) = false :=
      beq_eq_false_iff_ne.mpr fun he => h (k1, v1) (List.mem_cons_self _ _) he.symm
    simp only [List.lookup, hb]
    exact ih fun q hq => h q (List.mem_cons_of_mem _ hq)

theorem workerPass_mem_cases (now nowMs : Nat) (oracle : OutboxItem → PublishResult)
    (items : List OutboxItem) (lastAt : Nat) (y : OutboxItem)
    (hy : y ∈ (workerPass now nowMs oracle items lastAt).1) :
    y ∈ items ∨ ∃ it la, it ∈ items ∧ dueQueued now it = true ∧
      y = (attemptPublishOne now nowMs la (oracle it) it).item := by
  rcases Bool.eq_false_or_eq_true (items.any (dueQueued now)) with h | h
  · rw [workerPass, if_pos h] at hy
    by_cases he : (collectUpdates now nowMs oracle
        (List.insertionSort byCreatedAt items) lastAt).1.isEmpty
    · rw [if_pos he] at hy
      exact Or.inl hy
    · rw [if_neg he] at hy
      have hy2 := List.mem_of_mem_filter hy
      obtain ⟨p, hp, hfp⟩ := List.mem_map.mp hy2
      cases hl : (collectUpdates now nowMs oracle
          (List.insertionSort byCreatedAt items) lastAt).1.lookup p.id with
      | none => rw [hl] at hfp; simp at hfp; exact Or.inl (hfp ▸ hp)
      | some v =>
        rw [hl] at hfp
        simp at hfp
        have hmem := lookup_mem_of_some _ _ _ hl
        obtain ⟨it, hit, hdue, _, la, hval⟩ :=
          collectUpdates_mem now nowMs oracle _ _ _ hmem
        refine Or.inr ⟨it, la, ?_, hdue, ?_⟩
        · exact (List.mem_insertionSort byCreatedAt).mp hit
        · rw [← hfp]; exact hval
  · rw [workerPass, if_neg (by simp [h])] at hy
    exact Or.inl hy

theorem workerPass_keeps_failed (now nowMs : Nat) (oracle : OutboxItem → PublishResult)
    (items : List OutboxItem) (lastAt : Nat) (x : OutboxItem) (hx : x ∈ items)
    (hst : x.status = .failed) (hnd : (items.map OutboxItem.id).Nodup) :
    x ∈ (workerPass now nowMs oracle items lastAt).1 := by
  have hdx : dueQueued now x = false := by simp [dueQueued, hst]
  rcases Bool.eq_false_or_eq_true (items.any (dueQueued now)) with h | h
  · rw [workerPass, if_pos h]
    by_cases he : (collectUpdates now nowMs oracle
        (List.insertionSort byCreatedAt items) lastAt).1.isEmpty
    · rw [if_pos he]; exact hx
    · rw [if_neg he]
      have hlook : (collectUpdates now nowMs oracle
          (List.insertionSort byCreatedAt items) lastAt).1.lookup x.id = none := by
        apply lookup_none_of_not_key
        intro p hp hpk
        obtain ⟨it, hit, hdue, hid, _⟩ := collectUpdates_mem now nowMs oracle _ _ _ hp
        have hitm : it ∈ items := (List.mem_insertionSort byCreatedAt).mp hit
        have : it = x :=
          List.inj_on_of_nodup_map hnd hitm hx (by rw [← hid, hpk])
        rw [this, hdx] at hdue
        cases hdue
      apply List.mem_filter.mpr
      constructor
      · have := List.mem_map_of_mem
          (fun p => ((collectUpdates now nowMs oracle
            (List.insertionSort byCreatedAt items) lastAt).1.lookup p.id).getD p) hx
        simpa [hlook] using this
      · simp [hst]
  · rw [workerPass, if_neg (by simp [h])]
    exact hx

theorem noKeyToastTimes_cons (item : OutboxItem) (msg : String) (t : Nat) (ts : List Nat)
    (lastAt : Nat) (h : isNoKeyError msg = true) :
    noKeyToastTimes item msg (t :: ts) lastAt =
      if lastAt + 10000 < t then t :: noKeyToastTimes item msg ts t
      else noKeyToastTimes item msg ts lastAt := by
  simp only [noKeyToastTimes, classifyFailure_noKey _ _ _ _ _ _ h]
  by_cases hf : lastAt + 10000 < t <;> simp [hf]

theorem noKeyToastTimes_lb (item : OutboxItem) (msg : String) (h : isNoKeyError msg = true) :
    ∀ ts lastAt x, x ∈ noKeyToastTimes item msg ts lastAt → lastAt + 10000 < x := by
  intro ts
  induction ts with
  | nil => intro lastAt x hx; simp [noKeyToastTimes] at hx
  | cons t ts ih =>
    intro lastAt x hx
    rw [noKeyToastTimes_cons _ _ _ _ _ h] at hx
    by_cases hf : lastAt + 10000 < t
    · rw [if_pos hf] at hx
      rcases List.mem_cons.mp hx with rfl | hx
      · exact hf
      · have := ih t x hx; omega
    · rw [if_neg hf] at hx
      exact ih lastAt x hx

theorem noKeyToastTimes_chain (item : OutboxItem) (msg : String) (h : isNoKeyError msg = true) :
    ∀ ts lastAt, (noKeyToastTimes item msg ts lastAt).Chain' (fun a b => a + 10000 < b) := by
  intro ts
  induction ts with
  | nil => intro lastAt; simp [noKeyToastTimes]
  | cons t ts ih =>
    intro lastAt
    rw [noKeyToastTimes_cons _ _ _ _ _ h]
    by_cases hf : lastAt + 10000 < t
    · rw [if_pos hf]
      refine List.chain'_cons'.mpr ⟨?_, ih t⟩
      intro b hb
      exact noKeyToastTimes_lb item msg h ts t b (List.mem_of_mem_head? hb)
    · rw [if_neg hf]; exact ih lastAt

/-- C5: a publish attempt that fails with a no-signer error leaves the
item queued with nextAttemptAt = now + 5 minutes (300 s), and the
user-facing toast for this condition is throttled: it fires only when more
than 10000 ms have passed since the last one, so successive toast instants
in any failure trace are more than 10 seconds apart. -/
theorem no_signer_failure_pauses_and_throttles (now nowMs lastAt : Nat) (item : OutboxItem)
    (msg : String) (h : isNoKeyError msg = true) :
    ((attemptPublishOne now nowMs lastAt (.err msg) item).item.status = .queued ∧
      (attemptPublishOne now nowMs lastAt (.err msg) item).item.nextAttemptAt = now + 5 * 60 ∧
      (attemptPublishOne now nowMs lastAt (.err msg) item).toastShown =
        decide (lastAt + 10000 < nowMs)) ∧
    (∀ ts lastAt0, (noKeyToastTimes item msg ts lastAt0).Chain' fun a b => a + 10000 < b) := by
  constructor
  · rw [show attemptPublishOne now nowMs lastAt (.err msg) item =
        classifyFailure now nowMs lastAt item (item.attempts + 1) msg from rfl,
      classifyFailure_noKey _ _ _ _ _ _ h]
    exact ⟨rfl, rfl, rfl⟩
  · intro ts lastAt0
    exact noKeyToastTimes_chain item msg h ts lastAt0

/-- Witness for C5 at a concrete no-signer failure. -/
theorem no_signer_failure_pauses_and_throttles_witness :
    isNoKeyError "No private key available for local signing" = true ∧
    (attemptPublishOne 0 20000 0 (.err "No private key available for local signing")
      wItem).item.status = .queued ∧
    (attemptPublishOne 0 20000 0 (.err "No private key available for local signing")
      wItem).item.nextAttemptAt = 0 + 5 * 60 ∧
    (noKeyToastTimes wItem "No private key available for local signing"
      [10001, 15000, 25000] 0).Chain' (fun a b => a + 10000 < b) :=
  ⟨by decide,
   (no_signer_failure_pauses_and_throttles 0 20000 0 wItem _ (by decide)).1.1,
   (no_signer_failure_pauses_and_throttles 0 20000 0 wItem _ (by decide)).1.2.1,
   (no_signer_failure_pauses_and_throttles 0 20000 0 wItem _ (by decide)).2
     [10001, 15000, 25000] 0⟩

/-- C6: a publish attempt that fails with an error classified as neither
no-signer nor connectivity marks the item failed, records the message in
lastError, and still sets nextAttemptAt through the same backoff; failed
is terminal: the worker eligibility test rejects failed items, and a
failed item survives any worker pass unchanged. -/
theorem terminal_failure_is_terminal (now nowMs lastAt : Nat) (item : OutboxItem) (msg : String)
    (h1 : isNoKeyError msg = false) (h2 : isConnectionError msg = false) :
    ((attemptPublishOne now nowMs lastAt (.err msg) item).item.status = .failed ∧
      (attemptPublishOne now nowMs lastAt (.err msg) item).item.lastError = some msg ∧
      (attemptPublishOne now nowMs lastAt (.err msg) item).item.nextAttemptAt =
        now + computeBackoffSeconds (item.attempts + 1)) ∧
    (∀ now2 it, it.status = OutboxStatus.failed → dueQueued now2 it = false) ∧
    (∀ now2 nowMs2 oracle items lastAt2 (x : OutboxItem), x ∈ items →
      x.status = OutboxStatus.failed → (items.map OutboxItem.id).Nodup →
      x ∈ (workerPass now2 nowMs2 oracle items lastAt2).1) := by
  refine ⟨?_, ?_, ?_⟩
  · rw [show attemptPublishOne now nowMs lastAt (.err msg) item =
        classifyFailure now nowMs lastAt item (item.attempts + 1) msg from rfl,
      classifyFailure_terminal _ _ _ _ _ _ h1 h2]
    exact ⟨rfl, rfl, rfl⟩
  · intro now2 it hst
    simp [dueQueued, hst]
  · intro now2 nowMs2 oracle items lastAt2 x hx hst hnd
    exact workerPass_keeps_failed now2 nowMs2 oracle items lastAt2 x hx hst hnd

/-- Witness for C6 at a concrete terminal failure. -/
theorem terminal_failure_is_terminal_witness :
    isNoKeyError "Publish did not return an event id" = false ∧
    isConnectionError "Publish did not return an event id" = false ∧
    (attemptPublishOne 0 0 0 (.err "Publish did not return an event id")
      wItem).item.status = .failed ∧
    wFailed ∈ (workerPass 7 0 c2Oracle [wFailed] 0).1 :=
  ⟨by decide, by decide,
   (terminal_failure_is_terminal 0 0 0 wItem _ (by decide) (by decide)).1.1,
   (terminal_failure_is_terminal 0 0 0 wItem "Publish did not return an event id"
      (by decide) (by decide)).2.2
     7 0 c2Oracle [wFailed] 0 wFailed (by decide) (by decide) (by decide)⟩

/-- C7: a publish attempt that fails with a connectivity-classified error
keeps the item queued, increments attempts, and sets nextAttemptAt to
now + backoff(attempts), where backoff(n) = min(300 s, 2 * 2^n) for every
attempt count n. -/
theorem connectivity_failure_backoff (now nowMs lastAt : Nat) (item : OutboxItem) (msg : String)
    (h1 : isNoKeyError msg = false) (h2 : isConnectionError msg = true) :
    ((attemptPublishOne now nowMs lastAt (.err msg) item).item.status = .queued ∧
      (attemptPublishOne now nowMs lastAt (.err msg) item).item.attempts = item.attempts + 1 ∧
      (attemptPublishOne now nowMs lastAt (.err msg) item).item.nextAttemptAt =
        now + computeBackoffSeconds (item.attempts + 1)) ∧
    (∀ n : Nat, computeBackoffSeconds n = min 300 (2 * 2 ^ n)) := by
  constructor
  · rw [show attemptPublishOne now nowMs lastAt (.err msg) item =
        classifyFailure now nowMs lastAt item (item.attempts + 1) msg from rfl,
      classifyFailure_conn _ _ _ _ _ _ h1 h2]
    exact ⟨rfl, rfl, rfl⟩
  · exact computeBackoffSeconds_eq

/-- Witness for C7 at a concrete connectivity failure. -/
theorem connectivity_failure_backoff_witness :
    isNoKeyError "No relay connection available" = false ∧
    isConnectionError "No relay connection available" = true ∧
    (attemptPublishOne 100 0 0 (.err "No relay connection available")
      wItem).item.status = .queued ∧
    (attemptPublishOne 100 0 0 (.err "No relay connection available")
      wItem).item.nextAttemptAt = 100 + computeBackoffSeconds 1 ∧
    computeBackoffSeconds 9 = min 300 (2 * 2 ^ 9) :=
  ⟨by decide, by decide,
   (connectivity_failure_backoff 100 0 0 wItem _ (by decide) (by decide)).1.1,
   (connectivity_failure_backoff 100 0 0 wItem _ (by decide) (by decide)).1.2.2,
   (connectivity_failure_backoff 100 0 0 wItem "No relay connection available"
      (by decide) (by decide)).2 9⟩

/-- C10: no operation ever assigns the declared publishing status: both
enqueue operations create queued items, every attemptPublishOne result has
a status other than publishing, and a worker pass preserves the absence of
publishing across the whole outbox. -/
theorem publishing_status_never_assigned (localId : String) (now : Nat) (pE : EventPayload)
    (pC : CommentPayload) :
    (mkEventOutboxItem localId now pE).status = .queued ∧
    (mkCommentOutboxItem localId now pC).status = .queued ∧
    (∀ now2 nowMs lastAt res item,
      (attemptPublishOne now2 nowMs lastAt res item).item.status ≠ .publishing) ∧
    (∀ now2 nowMs oracle items lastAt, (∀ x ∈ items, x.status ≠ .publishing) →
      ∀ y ∈ (workerPass now2 nowMs oracle items lastAt).1, y.status ≠ .publishing) := by
  refine ⟨rfl, rfl, ?_, ?_⟩
  · intro now2 nowMs lastAt res item
    exact attemptPublishOne_status_ne_publishing now2 nowMs lastAt res item
  · intro now2 nowMs oracle items lastAt hall y hy
    rcases workerPass_mem_cases now2 nowMs oracle items lastAt y hy with hmem | ⟨it, la, _, _, heq⟩
    · exact hall y hmem
    · rw [heq]
      exact attemptPublishOne_status_ne_publishing now2 nowMs la (oracle it) it

/-- Witness for C10 at a concrete enqueue and worker pass. -/
theorem publishing_status_never_assigned_witness :
    (mkEventOutboxItem "e1" 3 wPayloadE).status = .queued ∧
    (mkCommentOutboxItem "c1" 3 wPayloadC).status = .queued ∧
    wBoom.status ≠ .publishing :=
  ⟨(publishing_status_never_assigned "e1" 3 wPayloadE wPayloadC).1,
   (publishing_status_never_assigned "e1" 3 wPayloadE wPayloadC).2.1,
   (publishing_status_never_assigned "e1" 3 wPayloadE wPayloadC).2.2.2
     5 0 (fun _ => .err "boom") [wItem] 0 (by decide) _ (by decide)⟩

/-- C2 counterexample: a worker pass whose publish succeeds removes the
item from the outbox immediately (the saved outbox filters out published
items), with no read cycle having confirmed the published id, refuting
that a published item remains in the persisted outbox until a read
observes its id. -/
theorem worker_prunes_published_before_read :
    (attemptPublishOne 5 0 0 (c2Oracle wItem) wItem).item.status = .published ∧
    (attemptPublishOne 5 0 0 (c2Oracle wItem) wItem).item.publishedEventId = some "evt1" ∧
    (workerPass 5 0 c2Oracle [wItem] 0).1 = [] := by
  decide

/-- C2 (amended): an item that reaches status published is removed from
the outbox by the worker pass itself at the end of the pass, without
waiting for a read cycle; independently, the read-cycle reconciliation
removes any remaining agora_event item whose publishedEventId appears in
the live result set. -/
theorem published_pruned_by_worker_and_read (now nowMs lastAt : Nat)
    (oracle : OutboxItem → PublishResult) (items : List OutboxItem)
    (h : items.any (dueQueued now) = true) :
    (∀ y ∈ (workerPass now nowMs oracle items lastAt).1, y.status ≠ .published) ∧
    (∀ (remoteIds : List String) (x : OutboxItem) (pid : String), x.type = .agora_event →
      x.publishedEventId = some pid → pid ≠ "" → pid ∈ remoteIds →
      x ∉ pruneConfirmed remoteIds items) := by
  constructor
  · intro y hy
    obtain ⟨it, hit, hdue⟩ := List.any_eq_true.mp h
    have hsorted : it ∈ List.insertionSort byCreatedAt items :=
      (List.mem_insertionSort byCreatedAt).mpr hit
    have hne := collectUpdates_ne_nil now nowMs oracle _ lastAt it hsorted hdue
    have hem : (collectUpdates now nowMs oracle
        (List.insertionSort byCreatedAt items) lastAt).1.isEmpty = false := by
      rcases hcu : (collectUpdates now nowMs oracle
          (List.insertionSort byCreatedAt items) lastAt).1 with _ | ⟨a, l⟩
      · exact absurd hcu hne
      · rfl
    rw [workerPass, if_pos h, if_neg (by simp [hem])] at hy
    have hf := (List.mem_filter.mp hy).2
    simpa using hf
  · intro remoteIds x pid ht hpid hne0 hmem hcontra
    have hf := (List.mem_filter.mp hcontra).2
    simp [keepAfterReadCycle, ht, hpid, hne0] at hf
    exact hf hmem

/-- Witness for the amended C2 at a concrete pass and read cycle. -/
theorem published_pruned_by_worker_and_read_witness :
    ([wPub].any (dueQueued 5)) = true ∧ wPub ∉ pruneConfirmed ["evt1"] [wPub] :=
  ⟨by decide,
   (published_pruned_by_worker_and_read 5 0 0 c2Oracle [wPub] (by decide)).2
     ["evt1"] wPub "evt1" rfl rfl (by decide) (by decide)⟩

end Outbox

namespace Conn

theorem getBackoffDelay_bounds (a : Nat) (u : ℚ) (h0 : 0 ≤ u) (h1 : u < 1) :
    min 30000 (1000 * 2 ^ a) ≤ getBackoffDelay a u ∧
    getBackoffDelay a u ≤ (7 / 5) * min 30000 (1000 * 2 ^ a) := by
  have he : (0 : ℚ) ≤ min 30000 (1000 * 2 ^ a) := by positivity
  constructor
  · have hj : (0 : ℚ) ≤ u * (min 30000 (1000 * 2 ^ a) * (2 / 5)) := by positivity
    simp only [getBackoffDelay]
    linarith
  · have hu : u * (min (30000 : ℚ) (1000 * 2 ^ a) * (2 / 5)) ≤
        1 * (min (30000 : ℚ) (1000 * 2 ^ a) * (2 / 5)) := by
      apply mul_le_mul_of_nonneg_right (le_of_lt h1)
      positivity
    simp only [getBackoffDelay]
    linarith

theorem dPre_mono (r1 r2 : Nat) (h : r1 ≤ r2) : dPre r1 ≤ dPre r2 := by
  unfold dPre
  apply min_le_min le_rfl
  have hp : (2 : ℚ) ^ min r1 6 ≤ 2 ^ min r2 6 :=
    pow_le_pow_right₀ (by norm_num) (min_le_min h (le_refl 6))
  linarith

theorem dPre_plateau (r : Nat) (h : 6 ≤ r) : dPre r = 30000 := by
  unfold dPre
  rw [Nat.min_eq_right h]
  norm_num

/-- C1: connectToWebSocket is a no-op while the socket is OPEN or
CONNECTING: the socket slot and the generation counter are unchanged, so
no new WebSocket is constructed; and from the idle state two connect calls
in immediate succession increment the generation exactly once, creating
exactly one physical connection (there is a single socket slot, so at most
one socket exists at any instant). -/
theorem connect_idempotent_single_socket (s : ConnState)
    (h : s.ws = some .OPEN ∨ s.ws = some .CONNECTING) (s0 : ConnState) (h0 : s0.ws = none) :
    ((connectToWebSocket s).ws = s.ws ∧ (connectToWebSocket s).generation = s.generation) ∧
    ((connectToWebSocket (connectToWebSocket s0)).generation = s0.generation + 1 ∧
      (connectToWebSocket (connectToWebSocket s0)).ws = some .CONNECTING) := by
  constructor
  · by_cases hm : s.isManuallyClosed = true <;>
      rcases h with h | h <;>
        simp [connectToWebSocket, hm, h]
  · by_cases hm : s0.isManuallyClosed = true <;>
      simp [connectToWebSocket, hm, h0]

/-- Witness for C1 at concrete open and idle states. -/
theorem connect_idempotent_single_socket_witness :
    (wOpenConn.ws = some .OPEN ∨ wOpenConn.ws = some .CONNECTING) ∧ wIdleConn.ws = none ∧
    (connectToWebSocket wOpenConn).generation = wOpenConn.generation ∧
    (connectToWebSocket (connectToWebSocket wIdleConn)).generation = wIdleConn.generation + 1 :=
  ⟨Or.inl rfl, rfl,
   (connect_idempotent_single_socket wOpenConn (Or.inl rfl) wIdleConn rfl).1.2,
   (connect_idempotent_single_socket wOpenConn (Or.inl rfl) wIdleConn rfl).2.1⟩

/-- C4: a failure with a live generation schedules a reconnect after
d + jitter where d = min(30000, 1000 * 2^min(r, 6)) for the incremented
retry counter r, the jitter being u * 0.4 * d with u drawn from [0, 1); so
every delay lies in [d, 1.4 * d], the pre-jitter delay is non-decreasing
in the retry counter, and it plateaus at the 30 s cap from r = 6 on. -/
theorem reconnect_backoff_bounds (s : ConnState) (u : ℚ) (h0 : 0 ≤ u) (h1 : u < 1)
    (hm : s.isManuallyClosed = false) :
    ((handleWebSocketFailure s s.generation u).2 =
        some (getBackoffDelay (min (s.retryCount + 1) 6) u) ∧
      (handleWebSocketFailure s s.generation u).1.retryCount = s.retryCount + 1 ∧
      dPre (s.retryCount + 1) ≤ getBackoffDelay (min (s.retryCount + 1) 6) u ∧
      getBackoffDelay (min (s.retryCount + 1) 6) u ≤ (7 / 5) * dPre (s.retryCount + 1)) ∧
    (∀ r1 r2 : Nat, r1 ≤ r2 → dPre r1 ≤ dPre r2) ∧
    (∀ r : Nat, 6 ≤ r → dPre r = 30000) := by
  refine ⟨⟨?_, ?_, ?_, ?_⟩, dPre_mono, dPre_plateau⟩
  · rw [handleWebSocketFailure, if_neg (by simp [hm]), if_neg (by simp)]
  · rw [handleWebSocketFailure, if_neg (by simp [hm]), if_neg (by simp)]
  · exact (getBackoffDelay_bounds _ u h0 h1).1
  · exact (getBackoffDelay_bounds _ u h0 h1).2

/-- Witness for C4 at a concrete state and random draw. -/
theorem reconnect_backoff_bounds_witness :
    (0 : ℚ) ≤ 1 / 2 ∧ (1 / 2 : ℚ) < 1 ∧ wConn.isManuallyClosed = false ∧
    (handleWebSocketFailure wConn wConn.generation (1 / 2)).1.retryCount =
      wConn.retryCount + 1 ∧
    dPre (wConn.retryCount + 1) ≤ getBackoffDelay (min (wConn.retryCount + 1) 6) (1 / 2) ∧
    dPre 4 ≤ dPre 9 ∧ dPre 8 = 30000 :=
  ⟨by norm_num, by norm_num, rfl,
   (reconnect_backoff_bounds wConn (1 / 2) (by norm_num) (by norm_num) rfl).1.2.1,
   (reconnect_backoff_bounds wConn (1 / 2) (by norm_num) (by norm_num) rfl).1.2.2.1,
   (reconnect_backoff_bounds wConn (1 / 2) (by norm_num) (by norm_num) rfl).2.1 4 9
     (by norm_num),
   (reconnect_backoff_bounds wConn (1 / 2) (by norm_num) (by norm_num) rfl).2.2 8
     (by norm_num)⟩

end Conn

namespace Pool

/-- C3: when the bounded wait for an open connection fails, the
subscription delivers exactly the synthetic end marker EOSE and the
iterator terminates (and no frame is sent at all); and when an EOSE frame
for the subscription arrives before any EVENT frame, the consumer sequence
is just that EOSE (zero items) and exactly one CLOSE unsubscribe frame is
sent. -/
theorem req_timeout_and_eose (subId : String) (inbound rest : List InMsg)
    (h : inbound = InMsg.eose subId :: rest) :
    (runReq subId false inbound = ([InMsg.eose subId], []) ∧
      eventCount [InMsg.eose subId] = 0) ∧
    ((runReq subId true inbound).1 = [InMsg.eose subId] ∧
      eventCount (runReq subId true inbound).1 = 0 ∧
      (runReq subId true inbound).2.count (OutMsg.close subId) = 1) := by
  constructor
  · exact ⟨by simp [runReq], rfl⟩
  · subst h
    have hd : deliverLoop subId true (InMsg.eose subId :: rest) =
        ([InMsg.eose subId], [OutMsg.close subId]) := by
      rw [deliverLoop]
      simp [InMsg.routeKey]
    refine ⟨?_, ?_, ?_⟩
    · simp [runReq, hd]
    · simp [runReq, hd, eventCount]
    · simp [runReq, hd, List.count_cons, beq_iff_eq]

/-- Witness for C3 at a concrete subscription. -/
theorem req_timeout_and_eose_witness :
    runReq "sub_X" false (InMsg.eose "sub_X" :: [InMsg.event "sub_X" wEv]) =
      ([InMsg.eose "sub_X"], []) ∧
    (runReq "sub_X" true (InMsg.eose "sub_X" :: [InMsg.event "sub_X" wEv])).1 =
      [InMsg.eose "sub_X"] ∧
    (runReq "sub_X" true (InMsg.eose "sub_X" :: [InMsg.event "sub_X" wEv])).2.count
      (OutMsg.close "sub_X") = 1 :=
  ⟨(req_timeout_and_eose "sub_X" _ [InMsg.event "sub_X" wEv] rfl).1.1,
   (req_timeout_and_eose "sub_X" _ [InMsg.event "sub_X" wEv] rfl).2.1,
   (req_timeout_and_eose "sub_X" _ [InMsg.event "sub_X" wEv] rfl).2.2.2⟩

end Pool

namespace Parse

theorem dropWhile_head_not (p : Char → Bool) :
    ∀ (l : List Char) (a : Char) (t : List Char), l.dropWhile p = a :: t → p a = false := by
  intro l
  induction l with
  | nil => intro a t h; simp [List.dropWhile] at h
  | cons c cs ih =>
    intro a t h
    by_cases hc : p c = true
    · rw [List.dropWhile_cons_of_pos hc] at h
      exact ih a t h
    · rw [List.dropWhile_cons_of_neg hc] at h
      injection h with h1 h2
      subst h1
      exact Bool.eq_false_iff.mpr hc

theorem trimL_eq_nil_all_ws (l : List Char) (h : trimL l = []) :
    ∀ c ∈ l, isWsChar c = true := by
  unfold trimL at h
  rw [List.reverse_eq_nil_iff, List.dropWhile_eq_nil_iff] at h
  intro c hc
  rw [← List.takeWhile_append_dropWhile (p := isWsChar) (l := l)] at hc
  rcases List.mem_append.mp hc with h1 | h2
  · exact List.mem_takeWhile_imp h1
  · exact h c (List.mem_reverse.mpr h2)

theorem trimL_ne_nil_exists (l : List Char) (h : trimL l ≠ []) :
    ∃ c ∈ trimL l, isWsChar c = false := by
  unfold trimL at *
  rcases hd : (l.dropWhile isWsChar).reverse.dropWhile isWsChar with _ | ⟨a, t⟩
  · rw [hd] at h; simp at h
  · refine ⟨a, ?_, dropWhile_head_not isWsChar _ a t hd⟩
    exact List.mem_reverse.mpr (List.mem_cons_self _ _)

theorem splitOnNl_ne_nil : ∀ l : List Char, splitOnNl l ≠ [] := by
  intro l
  cases l with
  | nil => simp [splitOnNl]
  | cons c cs =>
    rcases h : splitOnNl cs with _ | ⟨h0, t⟩
    · simp [splitOnNl, h]
    · by_cases hc : c = '\n' <;> simp [splitOnNl, h, hc]

theorem splitOnNl_mem (c : Char) (hc : c ≠ '\n') :
    ∀ l, c ∈ l → ∃ s ∈ splitOnNl l, c ∈ s := by
  intro l
  induction l with
  | nil => intro h; simp at h
  | cons x xs ih =>
    intro hmem
    rcases hs : splitOnNl xs with _ | ⟨h0, t⟩
    · exact absurd hs (splitOnNl_ne_nil xs)
    · rcases List.mem_cons.mp hmem with rfl | hmem
      · refine ⟨c :: h0, ?_, List.mem_cons_self _ _⟩
        simp [splitOnNl, hs, hc]
      · obtain ⟨s, hs1, hs2⟩ := ih hmem
        rw [hs] at hs1
        by_cases hx : x = '\n'
        · refine ⟨s, ?_, hs2⟩
          simp only [splitOnNl, hs, hx, if_pos rfl]
          exact List.mem_cons_of_mem _ hs1
        · rcases List.mem_cons.mp hs1 with rfl | hst
          · refine ⟨x :: s, ?_, List.mem_cons_of_mem _ hs2⟩
            simp [splitOnNl, hs, hx]
          · refine ⟨s, ?_, hs2⟩
            simp only [splitOnNl, hs, if_neg hx]
            exact List.mem_cons_of_mem _ hst

theorem linesOf_ne_nil (raw : List Char) (c : Char) (hc : c ∈ raw)
    (hcw : isWsChar c = false) : linesOf raw ≠ [] := by
  have hcn : c ≠ '\n' := by
    intro h
    rw [h] at hcw
    simp [isWsChar] at hcw
  obtain ⟨s, hs, hcs⟩ := splitOnNl_mem c hcn raw hc
  have hts : trimL s ≠ [] := by
    intro h
    have := trimL_eq_nil_all_ws s h c hcs
    rw [hcw] at this
    cases this
  have hmem : trimL s ∈ linesOf raw := by
    unfold linesOf
    apply List.mem_filter.mpr
    exact ⟨List.mem_map_of_mem _ hs, by simpa [List.isEmpty_iff] using hts⟩
  exact List.ne_nil_of_mem hmem

/-- C8: when the content does not parse as JSON, parseAgoraEvent drops the
record only if the trimmed content is empty (never solely for being
malformed JSON), and otherwise falls back to using the first nonblank
trimmed line as the title and the remaining lines, joined by newlines, as
the description. -/
theorem fallback_parse_never_drops (jp : List Char → Option Json)
    (um : List Char → Option (List Char)) (ev : NostrEvent)
    (hjp : jp (trimL ev.content.toList) = none) :
    (parseAgoraEvent jp um ev = none ↔ trimL ev.content.toList = []) ∧
    (∀ l0 restL, linesOf (trimL ev.content.toList) = l0 :: restL →
      parseAgoraEvent jp um ev = some
        { id := ev.id, pubkey := ev.pubkey, created_at := ev.created_at,
          title := .str (String.mk (l0.take 140)),
          description := .str (String.mk ((joinNl restL).take 4000)),
          start := none, endTime := none, location := none,
          url := (um (trimL ev.content.toList)).map String.mk, image_url := none,
          raw := ev }) := by
  constructor
  · constructor
    · intro h
      by_contra hne
      obtain ⟨c, hc, hcw⟩ := trimL_ne_nil_exists ev.content.toList hne
      have hl := linesOf_ne_nil (trimL ev.content.toList) c hc hcw
      rcases hls : linesOf (trimL ev.content.toList) with _ | ⟨l0, restL⟩
      · exact hl hls
      · rw [parseAgoraEvent, if_neg (by simpa [List.isEmpty_iff] using hne), hjp,
          fallbackParse, hls] at h
        cases h
    · intro h
      rw [parseAgoraEvent, if_pos (by simpa [List.isEmpty_iff] using h)]
  · intro l0 restL hls
    have hne : trimL ev.content.toList ≠ [] := by
      intro h
      rw [h] at hls
      cases hls
    rw [parseAgoraEvent, if_neg (by simpa [List.isEmpty_iff] using hne), hjp,
      fallbackParse, hls]

/-- Witness for C8 at a concrete non-JSON record. -/
theorem fallback_parse_never_drops_witness :
    (parseAgoraEvent (fun _ => none) (fun _ => none) wNostrEv = none ↔
      trimL wNostrEv.content.toList = []) ∧
    parseAgoraEvent (fun _ => none) (fun _ => none) wNostrEv = some
      { id := wNostrEv.id, pubkey := wNostrEv.pubkey, created_at := wNostrEv.created_at,
        title := .str (String.mk ("Hello".toList.take 140)),
        description := .str (String.mk ((joinNl ["World".toList]).take 4000)),
        start := none, endTime := none, location := none,
        url := ((fun _ => (none : Option (List Char)))
          (trimL wNostrEv.content.toList)).map String.mk,
        image_url := none, raw := wNostrEv } :=
  ⟨(fallback_parse_never_drops (fun _ => none) (fun _ => none) wNostrEv rfl).1,
   (fallback_parse_never_drops (fun _ => none) (fun _ => none) wNostrEv rfl).2
     "Hello".toList ["World".toList] (by decide)⟩

end Parse

namespace Bech32

theorem cond_xor (c : Prop) [Decidable c] (x g : Nat) :
    (if c then x ^^^ g else x) = x ^^^ (if c then g else 0) := by
  split <;> simp

theorem xor_left_comm (a b c : Nat) : a ^^^ (b ^^^ c) = b ^^^ (a ^^^ c) := by
  rw [← Nat.xor_assoc, Nat.xor_comm a b, Nat.xor_assoc]

theorem polymodStep_eq (chk v : Nat) :
    polymodStep chk v = (((chk &&& 0x1ffffff) <<< 5) ^^^ v) ^^^ polymodG (chk >>> 25) := by
  unfold polymodStep
  rw [show List.range 5 = [0, 1, 2, 3, 4] from rfl]
  simp only [List.foldl_cons, List.foldl_nil]
  rw [cond_xor, cond_xor, cond_xor, cond_xor, cond_xor]
  unfold polymodG
  simp only [Nat.xor_assoc]

theorem polymodG_lin : ∀ t1 < 32, ∀ t2 < 32,
    polymodG (t1 ^^^ t2) = polymodG t1 ^^^ polymodG t2 := by decide

theorem polymodG_bound (t : Nat) : polymodG t < 2 ^ 30 := by
  unfold polymodG
  refine Nat.xor_lt_two_pow ?_ (Nat.xor_lt_two_pow ?_ (Nat.xor_lt_two_pow ?_
    (Nat.xor_lt_two_pow ?_ ?_))) <;> (split <;> decide)

theorem shiftRight25_lt_32 {a : Nat} (ha : a < 2 ^ 30) : a >>> 25 < 32 := by
  rw [Nat.shiftRight_eq_div_pow]
  omega

theorem xor_shiftLeft (a b n : Nat) : (a ^^^ b) <<< n = (a <<< n) ^^^ (b <<< n) := by
  apply Nat.eq_of_testBit_eq
  intro i
  simp [Nat.testBit_shiftLeft, Nat.testBit_xor, Bool.and_xor_distrib_left]

theorem xor_shiftRight (a b n : Nat) : (a ^^^ b) >>> n = (a >>> n) ^^^ (b >>> n) := by
  apply Nat.eq_of_testBit_eq
  intro i
  simp [Nat.testBit_shiftRight, Nat.testBit_xor]

theorem polymodStep_lin (a b v w : Nat) (ha : a < 2 ^ 30) (hb : b < 2 ^ 30) :
    polymodStep (a ^^^ b) (v ^^^ w) = polymodStep a v ^^^ polymodStep b w := by
  rw [polymodStep_eq, polymodStep_eq, polymodStep_eq, Nat.and_xor_distrib_right, xor_shiftLeft,
    xor_shiftRight, polymodG_lin (a >>> 25) (shiftRight25_lt_32 ha) (b >>> 25)
      (shiftRight25_lt_32 hb)]
  simp only [Nat.xor_assoc, Nat.xor_comm, xor_left_comm]

theorem polymodStep_bound (chk v : Nat) (hv : v < 2 ^ 30) : polymodStep chk v < 2 ^ 30 := by
  rw [polymodStep_eq]
  refine Nat.xor_lt_two_pow (Nat.xor_lt_two_pow ?_ hv) (polymodG_bound _)
  have h1 : chk &&& 0x1ffffff < 2 ^ 25 := by
    have := Nat.and_le_right (n := chk) (m := 0x1ffffff)
    omega
  rw [Nat.shiftLeft_eq]
  calc (chk &&& 0x1ffffff) * 2 ^ 5 < 2 ^ 25 * 2 ^ 5 :=
        Nat.mul_lt_mul_of_pos_right h1 (by norm_num)
    _ = 2 ^ 30 := by norm_num

theorem foldl_polymodStep_bound : ∀ (l : List Nat), (∀ x ∈ l, x < 2 ^ 30) →
    ∀ c, c < 2 ^ 30 → l.foldl polymodStep c < 2 ^ 30 := by
  intro l
  induction l with
  | nil => intro _ c hc; simpa using hc
  | cons x xs ih =>
    intro h c hc
    simp only [List.foldl_cons]
    exact ih (fun y hy => h y (List.mem_cons_of_mem _ hy)) _
      (polymodStep_bound c x (h x (List.mem_cons_self _ _)))

theorem foldl_polymodStep_lin : ∀ (l1 : List Nat) (l2 : List Nat) (a b : Nat),
    l1.length = l2.length → (∀ x ∈ l1, x < 2 ^ 30) → (∀ x ∈ l2, x < 2 ^ 30) →
    a < 2 ^ 30 → b < 2 ^ 30 →
    (List.zipWith (· ^^^ ·) l1 l2).foldl polymodStep (a ^^^ b) =
      l1.foldl polymodStep a ^^^ l2.foldl polymodStep b := by
  intro l1
  induction l1 with
  | nil =>
    intro l2 a b hl _ _ _ _
    cases l2 with
    | nil => simp
    | cons y ys => simp at hl
  | cons x xs ih =>
    intro l2 a b hl h1 h2 ha hb
    cases l2 with
    | nil => simp at hl
    | cons y ys =>
      simp only [List.zipWith_cons_cons, List.foldl_cons]
      rw [polymodStep_lin a b x y ha hb]
      exact ih ys (polymodStep a x) (polymodStep b y) (by simpa using hl)
        (fun z hz => h1 z (List.mem_cons_of_mem _ hz))
        (fun z hz => h2 z (List.mem_cons_of_mem _ hz))
        (polymodStep_bound a x (h1 x (List.mem_cons_self _ _)))
        (polymodStep_bound b y (h2 y (List.mem_cons_self _ _)))

theorem polymodStep_recompose (y : Nat) (hy : y < 2 ^ 30) :
    polymodStep (y >>> 5) (y &&& 31) = y := by
  rw [polymodStep_eq]
  have htop : y >>> 5 >>> 25 = 0 := by
    rw [← Nat.shiftRight_add, Nat.shiftRight_eq_div_pow]
    exact Nat.div_eq_of_lt (by omega)
  rw [htop, show polymodG 0 = 0 from by decide, Nat.xor_zero]
  have h525 : y >>> 5 < 2 ^ 25 := by
    rw [Nat.shiftRight_eq_div_pow]
    omega
  have hmask : y >>> 5 &&& 0x1ffffff = y >>> 5 := by
    apply Nat.eq_of_testBit_eq
    intro i
    rw [Nat.testBit_and, show (0x1ffffff : Nat) = 2 ^ 25 - 1 from by norm_num,
      Nat.testBit_two_pow_sub_one]
    by_cases hi : i < 25
    · simp [hi]
    · rw [Nat.testBit_eq_false_of_lt (lt_of_lt_of_le h525
        (Nat.pow_le_pow_right (by norm_num) (by omega)))]
      simp
  rw [hmask]
  apply Nat.eq_of_testBit_eq
  intro i
  rw [Nat.testBit_xor, Nat.testBit_shiftLeft, Nat.testBit_and,
    show (31 : Nat) = 2 ^ 5 - 1 from by norm_num, Nat.testBit_two_pow_sub_one,
    Nat.testBit_shiftRight]
  by_cases hi : 5 ≤ i
  · simp [hi, show 5 + (i - 5) = i from by omega, show ¬ i < 5 from by omega]
  · simp [hi, show i < 5 from by omega]

theorem foldl_chunks6 (m : Nat) (hm : m < 2 ^ 30) :
    (chunks6 m).foldl polymodStep 0 = m := by
  have hb : ∀ k, m >>> k < 2 ^ 30 := fun k => by
    rw [Nat.shiftRight_eq_div_pow]
    exact lt_of_le_of_lt (Nat.div_le_self _ _) hm
  have e0 : polymodStep 0 ((m >>> 25) &&& 31) = m >>> 25 := by
    have h := polymodStep_recompose (m >>> 25) (hb 25)
    rwa [← Nat.shiftRight_add, show (25 + 5 : Nat) = 30 from rfl,
      show m >>> 30 = 0 from by rw [Nat.shiftRight_eq_div_pow]; exact Nat.div_eq_of_lt hm] at h
  have e1 : polymodStep (m >>> 25) ((m >>> 20) &&& 31) = m >>> 20 := by
    have h := polymodStep_recompose (m >>> 20) (hb 20)
    rwa [← Nat.shiftRight_add, show (20 + 5 : Nat) = 25 from rfl] at h
  have e2 : polymodStep (m >>> 20) ((m >>> 15) &&& 31) = m >>> 15 := by
    have h := polymodStep_recompose (m >>> 15) (hb 15)
    rwa [← Nat.shiftRight_add, show (15 + 5 : Nat) = 20 from rfl] at h
  have e3 : polymodStep (m >>> 15) ((m >>> 10) &&& 31) = m >>> 10 := by
    have h := polymodStep_recompose (m >>> 10) (hb 10)
    rwa [← Nat.shiftRight_add, show (10 + 5 : Nat) = 15 from rfl] at h
  have e4 : polymodStep (m >>> 10) ((m >>> 5) &&& 31) = m >>> 5 := by
    have h := polymodStep_recompose (m >>> 5) (hb 5)
    rwa [← Nat.shiftRight_add, show (5 + 5 : Nat) = 10 from rfl] at h
  have e5 : polymodStep (m >>> 5) ((m >>> 0) &&& 31) = m >>> 0 := by
    have h := polymodStep_recompose (m >>> 0) (hb 0)
    rwa [← Nat.shiftRight_add, show (0 + 5 : Nat) = 5 from rfl] at h
  rw [show chunks6 m = [(m >>> 25) &&& 31, (m >>> 20) &&& 31, (m >>> 15) &&& 31,
    (m >>> 10) &&& 31, (m >>> 5) &&& 31, (m >>> 0) &&& 31] from rfl]
  simp only [List.foldl_cons, List.foldl_nil]
  rw [e0, e1, e2, e3, e4, e5, Nat.shiftRight_zero]

theorem zipWith_zero_xor (l : List Nat) :
    List.zipWith (· ^^^ ·) (List.replicate l.length 0) l = l := by
  induction l with
  | nil => rfl
  | cons x xs ih => simp [List.replicate, ih]

theorem chunks6_length (m : Nat) : (chunks6 m).length = 6 := by
  simp [chunks6]

theorem chunks6_bound (m : Nat) : ∀ x ∈ chunks6 m, x < 32 := by
  intro x hx
  simp only [chunks6, List.mem_map] at hx
  obtain ⟨p, _, rfl⟩ := hx
  have := Nat.and_le_right (n := m >>> (5 * (5 - p))) (m := 31)
  omega

theorem foldl_chunks_decomp (c m : Nat) (hc : c < 2 ^ 30) (hm : m < 2 ^ 30) :
    (chunks6 m).foldl polymodStep c =
      (List.replicate 6 0).foldl polymodStep c ^^^ m := by
  have hz : List.zipWith (· ^^^ ·) (List.replicate 6 0) (chunks6 m) = chunks6 m := by
    rw [show (6 : Nat) = (chunks6 m).length from (chunks6_length m).symm]
    exact zipWith_zero_xor _
  calc (chunks6 m).foldl polymodStep c
      = (List.zipWith (· ^^^ ·) (List.replicate 6 0) (chunks6 m)).foldl polymodStep
          (c ^^^ 0) := by rw [hz, Nat.xor_zero]
    _ = (List.replicate 6 0).foldl polymodStep c ^^^ (chunks6 m).foldl polymodStep 0 := by
        apply foldl_polymodStep_lin
        · simp [chunks6_length]
        · intro x hx
          simp only [List.mem_replicate] at hx
          omega
        · intro x hx
          have := chunks6_bound m x hx
          omega
        · exact hc
        · norm_num
    _ = (List.replicate 6 0).foldl polymodStep c ^^^ m := by rw [foldl_chunks6 m hm]

theorem hrpExpand_bound (hrp : List Char) : ∀ x ∈ bech32HrpExpand hrp, x < 2 ^ 30 := by
  intro x hx
  simp only [bech32HrpExpand, List.mem_append, List.mem_map, List.mem_singleton] at hx
  rcases hx with (⟨c, _, rfl⟩ | rfl) | ⟨c, _, rfl⟩
  · have h : c.toNat < 2 ^ 32 := c.val.toNat_lt
    rw [Nat.shiftRight_eq_div_pow]
    omega
  · norm_num
  · have := Nat.and_le_right (n := c.toNat) (m := 31)
    omega

theorem createChecksum_eq_chunks (hrp : List Char) (data : List Nat) :
    bech32CreateChecksum hrp data =
      chunks6 (bech32Polymod (bech32HrpExpand hrp ++ data ++ [0, 0, 0, 0, 0, 0]) ^^^ 1) := rfl

theorem polymod_with_chunks (hrp : List Char) (data : List Nat) (m : Nat)
    (hd : ∀ x ∈ data, x < 32) (hm : m < 2 ^ 30) :
    bech32Polymod (bech32HrpExpand hrp ++ data ++ chunks6 m) =
      bech32Polymod (bech32HrpExpand hrp ++ data ++ [0, 0, 0, 0, 0, 0]) ^^^ m := by
  have hP : (bech32HrpExpand hrp ++ data).foldl polymodStep 1 < 2 ^ 30 := by
    apply foldl_polymodStep_bound
    · intro x hx
      rcases List.mem_append.mp hx with h | h
      · exact hrpExpand_bound hrp x h
      · have := hd x h
        omega
    · norm_num
  have hz : ([0, 0, 0, 0, 0, 0] : List Nat) = List.replicate 6 0 := rfl
  unfold bech32Polymod
  rw [List.foldl_append, foldl_chunks_decomp _ m hP hm, List.foldl_append, hz,
    List.foldl_append, List.foldl_append]

theorem verify_create (hrp : List Char) (data : List Nat) (hd : ∀ x ∈ data, x < 32) :
    bech32VerifyChecksum hrp (data ++ bech32CreateChecksum hrp data) = true := by
  have hvals : ∀ x ∈ bech32HrpExpand hrp ++ data ++ [0, 0, 0, 0, 0, 0], x < 2 ^ 30 := by
    intro x hx
    rcases List.mem_append.mp hx with h | h
    · rcases List.mem_append.mp h with h1 | h2
      · exact hrpExpand_bound hrp x h1
      · have := hd x h2
        omega
    · simp at h
      omega
  have hm : bech32Polymod (bech32HrpExpand hrp ++ data ++ [0, 0, 0, 0, 0, 0]) ^^^ 1 < 2 ^ 30 := by
    apply Nat.xor_lt_two_pow _ (by norm_num)
    apply foldl_polymodStep_bound _ hvals _ (by norm_num)
  rw [bech32VerifyChecksum, createChecksum_eq_chunks, ← List.append_assoc,
    polymod_with_chunks hrp data _ hd hm, ← Nat.xor_assoc, Nat.xor_self, Nat.zero_xor]
  rfl

theorem verify_corrupt (hrp : List Char) (data : List Nat) (hd : ∀ x ∈ data, x < 32)
    (k : Nat) (hk : k < 30) :
    bech32VerifyChecksum hrp (data ++ chunks6
      ((bech32Polymod (bech32HrpExpand hrp ++ data ++ [0, 0, 0, 0, 0, 0]) ^^^ 1) ^^^
        (1 <<< k))) = false := by
  have hvals : ∀ x ∈ bech32HrpExpand hrp ++ data ++ [0, 0, 0, 0, 0, 0], x < 2 ^ 30 := by
    intro x hx
    rcases List.mem_append.mp hx with h | h
    · rcases List.mem_append.mp h with h1 | h2
      · exact hrpExpand_bound hrp x h1
      · have := hd x h2
        omega
    · simp at h
      omega
  have hX : bech32Polymod (bech32HrpExpand hrp ++ data ++ [0, 0, 0, 0, 0, 0]) < 2 ^ 30 :=
    foldl_polymodStep_bound _ hvals _ (by norm_num)
  have hpk : (1 : Nat) <<< k < 2 ^ 30 := by
    rw [Nat.one_shiftLeft]
    exact Nat.pow_lt_pow_right (by norm_num) hk
  have hm : (bech32Polymod (bech32HrpExpand hrp ++ data ++ [0, 0, 0, 0, 0, 0]) ^^^ 1) ^^^
      (1 <<< k) < 2 ^ 30 :=
    Nat.xor_lt_two_pow (Nat.xor_lt_two_pow hX (by norm_num)) hpk
  rw [bech32VerifyChecksum, ← List.append_assoc, polymod_with_chunks hrp data _ hd hm,
    ← Nat.xor_assoc, ← Nat.xor_assoc, Nat.xor_self, Nat.zero_xor]
  simp only [beq_eq_false_iff_ne, ne_eq]
  intro hcontra
  have h2 : (1 : Nat) <<< k = 1 ^^^ (1 ^^^ 1 <<< k) := by
    rw [← Nat.xor_assoc, Nat.xor_self, Nat.zero_xor]
  rw [hcontra, Nat.xor_self] at h2
  rw [Nat.one_shiftLeft] at h2
  exact (Nat.pos_pow_of_pos k (by norm_num)).ne' h2

theorem natBits_length : ∀ (w x : Nat), (natBits w x).length = w := by
  intro w
  induction w with
  | zero => intro x; rfl
  | succ w ih => intro x; simp [natBits, ih]

theorem natBits_congr (w : Nat) : ∀ (x y : Nat), (∀ i, i < w → x.testBit i = y.testBit i) →
    natBits w x = natBits w y := by
  induction w with
  | zero => intro x y _; rfl
  | succ w ih =>
    intro x y h
    unfold natBits
    rw [h w (Nat.lt_succ_self w), ih x y fun i hi => h i (Nat.lt_succ_of_lt hi)]

theorem natBits_split (a b x : Nat) : natBits (a + b) x = natBits a (x >>> b) ++ natBits b x := by
  induction a with
  | zero =>
    rw [Nat.zero_add]
    rfl
  | succ a ih =>
    rw [Nat.succ_add]
    show x.testBit (a + b) :: natBits (a + b) x = natBits (a + 1) (x >>> b) ++ natBits b x
    rw [ih]
    show _ = ((x >>> b).testBit a :: natBits a (x >>> b)) ++ natBits b x
    rw [Nat.testBit_shiftRight, List.cons_append, Nat.add_comm b a]

theorem natBits_zero_val (w : Nat) : natBits w 0 = List.replicate w false := by
  induction w with
  | zero => rfl
  | succ w ih => simp [natBits, ih, List.replicate_succ, Nat.zero_testBit]

theorem foldl_bitsToNat (w : Nat) : ∀ (x acc : Nat),
    (natBits w x).foldl (fun a b => 2 * a + (if b then 1 else 0)) acc =
      acc * 2 ^ w + x % 2 ^ w := by
  induction w with
  | zero => intro x acc; simp [natBits, Nat.mod_one]
  | succ w ih =>
    intro x acc
    unfold natBits
    rw [List.foldl_cons, ih]
    have hm : x % 2 ^ (w + 1) = x % 2 ^ w + 2 ^ w * (x / 2 ^ w % 2) := by
      rw [Nat.pow_succ]
      exact Nat.mod_mul
    rw [hm, Nat.pow_succ]
    rcases Nat.mod_two_eq_zero_or_one (x / 2 ^ w) with h | h <;>
      · simp only [Nat.testBit_to_div_mod, h]
        norm_num
        ring

theorem bitsToNat_natBits (w x : Nat) (hx : x < 2 ^ w) : bitsToNat (natBits w x) = x := by
  unfold bitsToNat
  rw [foldl_bitsToNat]
  simp [Nat.mod_eq_of_lt hx]

theorem natBits_inj (w x y : Nat) (hx : x < 2 ^ w) (hy : y < 2 ^ w)
    (h : natBits w x = natBits w y) : x = y := by
  rw [← bitsToNat_natBits w x hx, ← bitsToNat_natBits w y hy, h]

theorem flatten_natBits_length (w : Nat) : ∀ (xs : List Nat),
    ((xs.map (natBits w)).flatten).length = w * xs.length := by
  intro xs
  induction xs with
  | nil => simp
  | cons x t ih =>
    simp only [List.map_cons, List.flatten_cons, List.length_append, natBits_length, ih,
      List.length_cons]
    ring

theorem flatten_natBits_inj (w : Nat) (hw : 0 < w) : ∀ (xs ys : List Nat),
    (∀ x ∈ xs, x < 2 ^ w) → (∀ y ∈ ys, y < 2 ^ w) →
    (xs.map (natBits w)).flatten = (ys.map (natBits w)).flatten → xs = ys := by
  intro xs
  induction xs with
  | nil =>
    intro ys _ _ h
    cases ys with
    | nil => rfl
    | cons y t =>
      have := congrArg List.length h
      simp only [List.map_nil, List.flatten_nil, List.length_nil, List.map_cons,
        List.flatten_cons, List.length_append, natBits_length] at this
      omega
  | cons x xs ih =>
    intro ys h1 h2 h
    cases ys with
    | nil =>
      have := congrArg List.length h
      simp only [List.map_nil, List.flatten_nil, List.length_nil, List.map_cons,
        List.flatten_cons, List.length_append, natBits_length] at this
      omega
    | cons y t =>
      simp only [List.map_cons, List.flatten_cons] at h
      have hinj := List.append_inj h (by rw [natBits_length, natBits_length])
      have hx := natBits_inj w x y (h1 x (List.mem_cons_self _ _))
        (h2 y (List.mem_cons_self _ _)) hinj.1
      rw [hx, ih t (fun z hz => h1 z (List.mem_cons_of_mem _ hz))
        (fun z hz => h2 z (List.mem_cons_of_mem _ hz)) hinj.2]

theorem emitLoop_spec (toBits : Nat) (ht : 0 < toBits) :
    ∀ (fuel acc bits : Nat), bits ≤ fuel →
      (emitLoop toBits (2 ^ toBits - 1) fuel acc bits).2 = bits % toBits ∧
      (((emitLoop toBits (2 ^ toBits - 1) fuel acc bits).1.map (natBits toBits)).flatten ++
        natBits (bits % toBits) acc = natBits bits acc) ∧
      (∀ x ∈ (emitLoop toBits (2 ^ toBits - 1) fuel acc bits).1, x < 2 ^ toBits) := by
  intro fuel
  induction fuel with
  | zero =>
    intro acc bits hb
    have hb0 : bits = 0 := Nat.le_zero.mp hb
    subst hb0
    exact ⟨by simp [emitLoop], by simp [emitLoop, Nat.zero_mod], by simp [emitLoop]⟩
  | succ fuel ih =>
    intro acc bits hb
    by_cases hge : toBits ≤ bits
    · obtain ⟨e1, e2, e3⟩ := ih acc (bits - toBits) (by omega)
      have hmod : bits % toBits = (bits - toBits) % toBits := by
        conv_lhs => rw [show bits = bits - toBits + toBits from by omega]
        rw [Nat.add_mod_right]
      have hsplit : natBits bits acc =
          natBits toBits (acc >>> (bits - toBits)) ++ natBits (bits - toBits) acc := by
        conv_lhs => rw [show bits = toBits + (bits - toBits) from by omega]
        exact natBits_split toBits (bits - toBits) acc
      have hmask : natBits toBits ((acc >>> (bits - toBits)) &&& (2 ^ toBits - 1)) =
          natBits toBits (acc >>> (bits - toBits)) := by
        apply natBits_congr
        intro i hi
        rw [Nat.testBit_and, Nat.testBit_two_pow_sub_one]
        simp [hi]
      rw [emitLoop, if_pos hge]
      refine ⟨by simpa [hmod] using e1, ?_, ?_⟩
      · simp only [List.map_cons, List.flatten_cons, List.append_assoc]
        rw [hmod, e2, hmask, ← hsplit]
      · intro x hx
        rcases List.mem_cons.mp hx with rfl | hx
        · have h1 := Nat.and_le_right (n := acc >>> (bits - toBits)) (m := 2 ^ toBits - 1)
          have h2 : 0 < 2 ^ toBits := Nat.pos_pow_of_pos toBits (by norm_num)
          omega
        · exact e3 x hx
    · rw [emitLoop, if_neg hge]
      have hlt : bits < toBits := by omega
      exact ⟨by simp [Nat.mod_eq_of_lt hlt], by simp [Nat.mod_eq_of_lt hlt], by simp⟩

theorem natBits_shiftLeft_or (bits fromBits acc v : Nat) (hv : v < 2 ^ fromBits) :
    natBits (bits + fromBits) ((acc <<< fromBits) ||| v) =
      natBits bits acc ++ natBits fromBits v := by
  rw [natBits_split bits fromBits ((acc <<< fromBits) ||| v)]
  congr 1
  · have hsh : ((acc <<< fromBits) ||| v) >>> fromBits = acc := by
      apply Nat.eq_of_testBit_eq
      intro i
      rw [Nat.testBit_shiftRight, Nat.testBit_or, Nat.testBit_shiftLeft,
        Nat.testBit_eq_false_of_lt (lt_of_lt_of_le hv
          (Nat.pow_le_pow_right (by norm_num) (by omega)))]
      simp [show fromBits ≤ fromBits + i from by omega,
        show fromBits + i - fromBits = i from by omega]
    rw [hsh]
  · apply natBits_congr
    intro i hi
    rw [Nat.testBit_or, Nat.testBit_shiftLeft]
    simp [show ¬ i ≥ fromBits from by omega]

theorem convertBitsGo_cons (fromBits toBits maxv v : Nat) (vs : List Nat) (acc bits : Nat)
    (h : v >>> fromBits = 0) :
    convertBitsGo fromBits toBits maxv (v :: vs) acc bits =
      match convertBitsGo fromBits toBits maxv vs ((acc <<< fromBits) ||| v)
        (emitLoop toBits maxv (bits + fromBits) ((acc <<< fromBits) ||| v)
          (bits + fromBits)).2 with
      | .error e => .error e
      | .ok (rest, accF, bitsF) =>
        .ok ((emitLoop toBits maxv (bits + fromBits) ((acc <<< fromBits) ||| v)
          (bits + fromBits)).1 ++ rest, accF, bitsF) := by
  rw [convertBitsGo, if_neg (by simp [h])]

theorem convertBitsGo_spec (fromBits toBits : Nat) (ht : 0 < toBits) :
    ∀ (data : List Nat), (∀ v ∈ data, v < 2 ^ fromBits) →
    ∀ (acc bits : Nat), bits < toBits →
    ∃ out accF bitsF,
      convertBitsGo fromBits toBits (2 ^ toBits - 1) data acc bits = .ok (out, accF, bitsF) ∧
      bitsF = (bits + fromBits * data.length) % toBits ∧ bitsF < toBits ∧
      ((out.map (natBits toBits)).flatten ++ natBits bitsF accF =
        natBits bits acc ++ (data.map (natBits fromBits)).flatten) ∧
      (∀ x ∈ out, x < 2 ^ toBits) := by
  intro data
  induction data with
  | nil =>
    intro _ acc bits hbt
    exact ⟨[], acc, bits, rfl, by simp [Nat.mod_eq_of_lt hbt], hbt, by simp, by simp⟩
  | cons v vs ih =>
    intro hv acc bits hbt
    have hv0 : v >>> fromBits = 0 := by
      rw [Nat.shiftRight_eq_div_pow]
      exact Nat.div_eq_of_lt (hv v (List.mem_cons_self _ _))
    obtain ⟨e1, e2, e3⟩ := emitLoop_spec toBits ht (bits + fromBits)
      ((acc <<< fromBits) ||| v) (bits + fromBits) le_rfl
    have hb1 : (bits + fromBits) % toBits < toBits := Nat.mod_lt _ ht
    obtain ⟨out, accF, bitsF, ho, hbF, hblt, hflat, hbound⟩ :=
      ih (fun z hz => hv z (List.mem_cons_of_mem _ hz)) ((acc <<< fromBits) ||| v)
        ((bits + fromBits) % toBits) hb1
    refine ⟨(emitLoop toBits (2 ^ toBits - 1) (bits + fromBits) ((acc <<< fromBits) ||| v)
      (bits + fromBits)).1 ++ out, accF, bitsF, ?_, ?_, hblt, ?_, ?_⟩
    · rw [convertBitsGo_cons _ _ _ _ _ _ _ hv0, e1, ho]
    · rw [hbF, Nat.mod_add_mod, List.length_cons, Nat.mul_succ]
      congr 1
      omega
    · rw [List.map_append, List.flatten_append, List.append_assoc, hflat,
        ← List.append_assoc, e2, natBits_shiftLeft_or bits fromBits acc v
          (hv v (List.mem_cons_self _ _)), List.map_cons, List.flatten_cons,
        List.append_assoc]
    · intro x hx
      rcases List.mem_append.mp hx with hx | hx
      · exact e3 x hx
      · exact hbound x hx

theorem natBits_pad_word (a : Nat) :
    natBits 5 ((a <<< 4) &&& 31) = natBits 1 a ++ List.replicate 4 false := by
  rw [show ∀ y : Nat, natBits 5 y =
      [y.testBit 4, y.testBit 3, y.testBit 2, y.testBit 1, y.testBit 0] from fun y => rfl,
    show natBits 1 a ++ List.replicate 4 false =
      [a.testBit 0, false, false, false, false] from rfl]
  simp [Nat.testBit_and, Nat.testBit_shiftLeft, show Nat.testBit 31 4 = true from rfl,
    show Nat.testBit 31 3 = true from rfl, show Nat.testBit 31 2 = true from rfl,
    show Nat.testBit 31 1 = true from rfl, show Nat.testBit 31 0 = true from rfl]

theorem convertBits_85_spec (sk : List Nat) (hb : ∀ b ∈ sk, b < 2 ^ 8)
    (hlen : sk.length = 32) :
    ∃ out accF, convertBits sk 8 5 true = .ok (out ++ [(accF <<< 4) &&& 31]) ∧
      out.length = 51 ∧ (∀ x ∈ out ++ [(accF <<< 4) &&& 31], x < 32) ∧
      (((out ++ [(accF <<< 4) &&& 31]).map (natBits 5)).flatten =
        (sk.map (natBits 8)).flatten ++ List.replicate 4 false) := by
  obtain ⟨out, accF, bitsF, ho, hbF, _, hflat, hbound⟩ :=
    convertBitsGo_spec 8 5 (by norm_num) sk hb 0 0 (by norm_num)
  have hbF1 : bitsF = 1 := by rw [hbF, hlen]
  subst hbF1
  have ho31 : convertBitsGo 8 5 ((1 <<< 5) - 1) sk 0 0 = .ok (out, accF, 1) := by
    rw [show ((1 <<< 5) - 1 : Nat) = 2 ^ 5 - 1 from by decide]
    exact ho
  have hflat1 : (out.map (natBits 5)).flatten ++ natBits 1 accF =
      (sk.map (natBits 8)).flatten := by
    rw [hflat]
    rfl
  have hlen51 : out.length = 51 := by
    have h1 := congrArg List.length hflat1
    simp only [List.length_append, flatten_natBits_length, natBits_length, hlen] at h1
    omega
  refine ⟨out, accF, ?_, hlen51, ?_, ?_⟩
  · unfold convertBits
    simp only [ho31]
    rw [show ((1 <<< 5) - 1 : Nat) = 31 from by decide, show ((5 : Nat) - 1) = 4 from rfl]
    norm_num
  · intro x hx
    rcases List.mem_append.mp hx with hx | hx
    · have := hbound x hx
      omega
    · simp only [List.mem_singleton] at hx
      subst hx
      have h1 := Nat.and_le_right (n := accF <<< 4) (m := 31)
      omega
  · rw [List.map_append, List.flatten_append, ← hflat1]
    simp only [List.map_cons, List.map_nil, List.flatten_cons, List.flatten_nil,
      List.append_nil, natBits_pad_word, List.append_assoc]

theorem low4_zero (a : Nat) (h : natBits 4 a = List.replicate 4 false) :
    (a <<< 4) &&& 255 = 0 := by
  have h3 : a.testBit 3 = false ∧ a.testBit 2 = false ∧ a.testBit 1 = false ∧
      a.testBit 0 = false := by
    simpa [natBits, List.replicate] using h
  apply Nat.eq_of_testBit_eq
  intro i
  rw [Nat.testBit_and, Nat.testBit_shiftLeft, Nat.zero_testBit,
    show (255 : Nat) = 2 ^ 8 - 1 from rfl, Nat.testBit_two_pow_sub_one]
  by_cases hi : i < 8
  · by_cases hi4 : i ≥ 4
    · interval_cases i <;>
        simp [h3.1, h3.2.1, h3.2.2.1, h3.2.2.2]
    · simp [hi4]
  · simp [hi]

theorem convertBits_roundtrip (sk ws : List Nat) (hb : ∀ b ∈ sk, b < 2 ^ 8)
    (hlen : sk.length = 32) (hws : ∀ x ∈ ws, x < 32) (hwl : ws.length = 52)
    (hwf : (ws.map (natBits 5)).flatten = (sk.map (natBits 8)).flatten ++
      List.replicate 4 false) :
    convertBits ws 5 8 false = .ok sk := by
  have hws' : ∀ x ∈ ws, x < 2 ^ 5 := fun x hx => hws x hx
  obtain ⟨out, accF, bitsF, ho, hbF, _, hflat, hbound⟩ :=
    convertBitsGo_spec 5 8 (by norm_num) ws hws' 0 0 (by norm_num)
  have hbF4 : bitsF = 4 := by rw [hbF, hwl]
  subst hbF4
  have hflat1 : (out.map (natBits 8)).flatten ++ natBits 4 accF =
      (sk.map (natBits 8)).flatten ++ List.replicate 4 false := by
    rw [hflat, hwf]
    rfl
  have hol : out.length = 32 := by
    have h1 := congrArg List.length hflat1
    simp only [List.length_append, flatten_natBits_length, natBits_length, hlen,
      List.length_replicate] at h1
    omega
  have hsplit := List.append_inj hflat1 (by
    simp only [flatten_natBits_length, hol, hlen])
  have hout : out = sk :=
    flatten_natBits_inj 8 (by norm_num) out sk hbound hb hsplit.1
  have hzero : (accF <<< (8 - 4)) &&& 255 = 0 := low4_zero accF hsplit.2
  have ho255 : convertBitsGo 5 8 ((1 <<< 8) - 1) ws 0 0 = .ok (out, accF, 4) := by
    rw [show ((1 <<< 8) - 1 : Nat) = 2 ^ 8 - 1 from by decide]
    exact ho
  unfold convertBits
  simp only [ho255]
  rw [show ((1 <<< 8) - 1 : Nat) = 255 from by decide]
  rw [if_neg (by norm_num), hout]
  simp [hzero]

theorem charset_facts : ∀ v < 32, (BECH32_CHARSET.getD v ' ' ≠ '1' ∧
    Char.toLower (BECH32_CHARSET.getD v ' ') = BECH32_CHARSET.getD v ' ' ∧
    Parse.isWsChar (BECH32_CHARSET.getD v ' ') = false ∧
    charIndex (BECH32_CHARSET.getD v ' ') BECH32_CHARSET = some v) := by decide

theorem nsec_prefix_facts : ('1' ∉ nsecChars) ∧ (∀ c ∈ nsecChars ++ ['1'],
    Char.toLower c = c ∧ Parse.isWsChar c = false) := by decide

theorem map_self {α : Type} (f : α → α) : ∀ l : List α, (∀ c ∈ l, f c = c) → l.map f = l := by
  intro l
  induction l with
  | nil => intro _; rfl
  | cons x t ih =>
    intro h
    simp only [List.map_cons, h x (List.mem_cons_self _ _),
      ih fun c hc => h c (List.mem_cons_of_mem _ hc)]

theorem dropWhile_all_neg {α : Type} (p : α → Bool) (l : List α)
    (h : ∀ c ∈ l, p c = false) : l.dropWhile p = l := by
  cases l with
  | nil => rfl
  | cons x t =>
    rw [List.dropWhile_cons_of_neg]
    rw [h x (List.mem_cons_self _ _)]
    simp

theorem trimL_id (l : List Char) (h : ∀ c ∈ l, Parse.isWsChar c = false) :
    Parse.trimL l = l := by
  unfold Parse.trimL
  rw [dropWhile_all_neg _ l h, dropWhile_all_neg _ l.reverse
    (fun c hc => h c (List.mem_reverse.mp hc)), List.reverse_reverse]

theorem lastIdxOf_not_mem (c : Char) : ∀ l : List Char, c ∉ l → lastIdxOf c l = none := by
  intro l
  induction l with
  | nil => intro _; rfl
  | cons x t ih =>
    intro h
    have hx : x ≠ c := fun he => h (he ▸ List.mem_cons_self _ _)
    rw [lastIdxOf, ih fun hm => h (List.mem_cons_of_mem _ hm)]
    simp [hx]

theorem lastIdxOf_append_cons (c : Char) (ys : List Char) (hy : c ∉ ys) :
    ∀ xs : List Char, lastIdxOf c (xs ++ c :: ys) = some xs.length := by
  intro xs
  induction xs with
  | nil =>
    rw [List.nil_append, lastIdxOf, lastIdxOf_not_mem c ys hy]
    simp
  | cons x t ih =>
    rw [List.cons_append, lastIdxOf, ih]
    rfl

theorem mapCharset_encode (ws : List Nat) (h : ∀ v ∈ ws, v < 32) :
    mapCharset (ws.map fun v => BECH32_CHARSET.getD v ' ') = .ok ws := by
  induction ws with
  | nil => rfl
  | cons v t ih =>
    have hv := h v (List.mem_cons_self _ _)
    simp only [List.map_cons, mapCharset, (charset_facts v hv).2.2.2,
      ih fun z hz => h z (List.mem_cons_of_mem _ hz)]

theorem createChecksum_bound (hrp : List Char) (data : List Nat) :
    ∀ x ∈ bech32CreateChecksum hrp data, x < 32 := by
  intro x hx
  simp only [bech32CreateChecksum, List.mem_map, List.mem_range] at hx
  obtain ⟨p, _, rfl⟩ := hx
  have := Nat.and_le_right (n := (bech32Polymod (bech32HrpExpand hrp ++ data ++
    [0, 0, 0, 0, 0, 0]) ^^^ 1) >>> (5 * (5 - p))) (m := 31)
  omega

theorem createChecksum_length (hrp : List Char) (data : List Nat) :
    (bech32CreateChecksum hrp data).length = 6 := by
  simp [bech32CreateChecksum]

theorem chunks6_bound_32 (m : Nat) : ∀ x ∈ chunks6 m, x < 32 := by
  intro x hx
  have := chunks6_bound m x hx
  omega

theorem encoded_chars_facts (ws cs : List Nat) (hall : ∀ v ∈ ws ++ cs, v < 32) :
    (∀ c ∈ nsecChars ++ ['1'] ++ ((ws ++ cs).map fun v => BECH32_CHARSET.getD v ' '),
      Char.toLower c = c ∧ Parse.isWsChar c = false) ∧
    '1' ∉ ((ws ++ cs).map fun v => BECH32_CHARSET.getD v ' ') := by
  have hchars : ∀ c ∈ (ws ++ cs).map (fun v => BECH32_CHARSET.getD v ' '),
      Char.toLower c = c ∧ Parse.isWsChar c = false ∧ c ≠ '1' := by
    intro c hc
    simp only [List.mem_map] at hc
    obtain ⟨v, hv, rfl⟩ := hc
    have h := charset_facts v (hall v hv)
    exact ⟨h.2.1, h.2.2.1, h.1⟩
  constructor
  · intro c hc
    rcases List.mem_append.mp hc with h | h
    · exact nsec_prefix_facts.2 c h
    · exact ⟨(hchars c h).1, (hchars c h).2.1⟩
  · intro hm
    exact (hchars '1' hm).2.2 rfl

theorem bech32Decode_encoded (ws cs : List Nat) (hwsb : ∀ x ∈ ws, x < 32)
    (hcsb : ∀ x ∈ cs, x < 32) (hcs6 : cs.length = 6) :
    bech32Decode (nsecChars ++ ['1'] ++ ((ws ++ cs).map fun v => BECH32_CHARSET.getD v ' ')) =
      (if bech32VerifyChecksum nsecChars (ws ++ cs) = true then
        match convertBits ws 5 8 false with
        | .error e => .error e
        | .ok bytes => .ok (nsecChars, bytes)
      else .error "bech32: invalid checksum") := by
  have hall : ∀ v ∈ ws ++ cs, v < 32 := by
    intro v hv
    rcases List.mem_append.mp hv with h | h
    · exact hwsb v h
    · exact hcsb v h
  obtain ⟨hfix, h1mem⟩ := encoded_chars_facts ws cs hall
  have hs : (Parse.trimL (nsecChars ++ ['1'] ++
      ((ws ++ cs).map fun v => BECH32_CHARSET.getD v ' '))).map Char.toLower =
      nsecChars ++ ['1'] ++ ((ws ++ cs).map fun v => BECH32_CHARSET.getD v ' ') := by
    rw [trimL_id _ fun c hc => (hfix c hc).2]
    exact map_self _ _ fun c hc => (hfix c hc).1
  have hshape : nsecChars ++ ['1'] ++ ((ws ++ cs).map fun v => BECH32_CHARSET.getD v ' ') =
      nsecChars ++ ('1' :: ((ws ++ cs).map fun v => BECH32_CHARSET.getD v ' ')) := by
    rw [List.append_assoc, List.singleton_append]
  have hlast : lastIdxOf '1' (nsecChars ++ ['1'] ++
      ((ws ++ cs).map fun v => BECH32_CHARSET.getD v ' ')) = some 4 := by
    rw [hshape, lastIdxOf_append_cons '1' _ h1mem nsecChars]
    rfl
  have hlen : (nsecChars ++ ['1'] ++
      ((ws ++ cs).map fun v => BECH32_CHARSET.getD v ' ')).length = ws.length + 11 := by
    simp [List.length_append, hcs6, show nsecChars.length = 4 from rfl]
    omega
  have htake : (nsecChars ++ ['1'] ++
      ((ws ++ cs).map fun v => BECH32_CHARSET.getD v ' ')).take 4 = nsecChars := by
    rw [List.append_assoc, show (4 : Nat) = nsecChars.length from rfl]
    exact List.take_left nsecChars _
  have hdrop : (nsecChars ++ ['1'] ++
      ((ws ++ cs).map fun v => BECH32_CHARSET.getD v ' ')).drop 5 =
      (ws ++ cs).map fun v => BECH32_CHARSET.getD v ' ' := by
    rw [show (5 : Nat) = (nsecChars ++ ['1']).length + 0 from rfl, List.drop_append 0]
    rfl
  have hmc : mapCharset ((ws ++ cs).map fun v => BECH32_CHARSET.getD v ' ') =
      .ok (ws ++ cs) := mapCharset_encode _ hall
  have hpay : (ws ++ cs).take (ws.length + cs.length - 6) = ws := by
    rw [hcs6, show ws.length + 6 - 6 = ws.length from by omega]
    exact List.take_left ws cs
  rw [bech32Decode]
  simp only [hs, hlast]
  rw [if_neg (by rw [hlen]; omega)]
  simp only [htake, hdrop, hmc]
  by_cases hv : bech32VerifyChecksum nsecChars (ws ++ cs) = true
  · simp [hv, hpay]
  · rw [Bool.not_eq_true] at hv
    simp [hv]

theorem decodeNsec_on_encoded (ws cs : List Nat) (hwsb : ∀ x ∈ ws, x < 32)
    (hcsb : ∀ x ∈ cs, x < 32) (hcs6 : cs.length = 6) (hwl : ws.length = 52) :
    decodeNsecToBytes (nsecChars ++ ['1'] ++
        ((ws ++ cs).map fun v => BECH32_CHARSET.getD v ' ')) =
      (if bech32VerifyChecksum nsecChars (ws ++ cs) = true then
        match convertBits ws 5 8 false with
        | .error e => .error e
        | .ok bytes => if bytes.length ≠ 32 then .error "Invalid nsec length" else .ok bytes
      else .error "bech32: invalid checksum") := by
  have hall : ∀ v ∈ ws ++ cs, v < 32 := by
    intro v hv
    rcases List.mem_append.mp hv with h | h
    · exact hwsb v h
    · exact hcsb v h
  obtain ⟨hfix, _⟩ := encoded_chars_facts ws cs hall
  have htrim : Parse.trimL (nsecChars ++ ['1'] ++
      ((ws ++ cs).map fun v => BECH32_CHARSET.getD v ' ')) =
      nsecChars ++ ['1'] ++ ((ws ++ cs).map fun v => BECH32_CHARSET.getD v ' ') :=
    trimL_id _ fun c hc => (hfix c hc).2
  have hlen : (nsecChars ++ ['1'] ++
      ((ws ++ cs).map fun v => BECH32_CHARSET.getD v ' ')).length = 63 := by
    simp [List.length_append, hcs6, hwl, show nsecChars.length = 4 from rfl]
  have hhex : isHex64 (nsecChars ++ ['1'] ++
      ((ws ++ cs).map fun v => BECH32_CHARSET.getD v ' ')) = false := by
    unfold isHex64
    rw [hlen]
    rfl
  rw [decodeNsecToBytes, htrim, hhex]
  simp only [Bool.false_eq_true, if_false]
  rw [bech32Decode_encoded ws cs hwsb hcsb hcs6]
  by_cases hv : bech32VerifyChecksum nsecChars (ws ++ cs) = true
  · rcases hcb : convertBits ws 5 8 false with e | bytes <;> simp [hv, hcb]
  · rw [Bool.not_eq_true] at hv
    simp [hv]

/-- C9: for every valid 32-byte scalar, decoding the encoded textual nsec
form returns the same bytes (decode after encode is the identity), and
decoding a textual key whose 30-bit checksum value has any single bit
flipped fails with the invalid-checksum error instead of returning a key
(the in-repo bech32 fallback of auth.ts). -/
theorem nsec_roundtrip_and_checksum (sk : List Nat) (h32 : sk.length = 32)
    (hb : ∀ b ∈ sk, b < 256) :
    (∃ enc, encodeNsec sk = .ok enc ∧ decodeNsecToBytes enc = .ok sk) ∧
    (∀ k, k < 30 →
      decodeNsecToBytes (corruptChecksum sk k) = .error "bech32: invalid checksum") := by
  have hb8 : ∀ b ∈ sk, b < 2 ^ 8 := fun b hbm => hb b hbm
  obtain ⟨out, accF, h85, hol, hwsb, hwf⟩ := convertBits_85_spec sk hb8 h32
  set ws : List Nat := out ++ [(accF <<< 4) &&& 31] with hws
  have hwl : ws.length = 52 := by simp [hws, hol]
  have hback : convertBits ws 5 8 false = .ok sk :=
    convertBits_roundtrip sk ws hb8 h32 hwsb hwl hwf
  constructor
  · refine ⟨nsecChars ++ ['1'] ++ ((ws ++ bech32CreateChecksum nsecChars ws).map
      fun v => BECH32_CHARSET.getD v ' '), ?_, ?_⟩
    · unfold encodeNsec bech32Encode
      rw [h85]
    · rw [decodeNsec_on_encoded ws _ hwsb (createChecksum_bound _ _)
        (createChecksum_length _ _) hwl, verify_create nsecChars ws hwsb, if_pos rfl, hback]
      simp [h32]
  · intro k hk
    have hcor : corruptChecksum sk k = nsecChars ++ ['1'] ++
        ((ws ++ chunks6 ((bech32Polymod (bech32HrpExpand nsecChars ++ ws ++
          [0, 0, 0, 0, 0, 0]) ^^^ 1) ^^^ (1 <<< k))).map
          fun v => BECH32_CHARSET.getD v ' ') := by
      unfold corruptChecksum
      rw [h85]
      rfl
    rw [hcor, decodeNsec_on_encoded ws _ hwsb (chunks6_bound_32 _) (chunks6_length _) hwl,
      verify_corrupt nsecChars ws hwsb k hk]
    simp

/-- Witness for C9 at a concrete scalar and checksum bit. -/
theorem nsec_roundtrip_and_checksum_witness :
    wSk.length = 32 ∧ (∀ b ∈ wSk, b < 256) ∧
    (∃ enc, encodeNsec wSk = .ok enc ∧ decodeNsecToBytes enc = .ok wSk) ∧
    decodeNsecToBytes (corruptChecksum wSk 3) = .error "bech32: invalid checksum" :=
  ⟨by decide, by decide,
   (nsec_roundtrip_and_checksum wSk (by decide) (by decide)).1,
   (nsec_roundtrip_and_checksum wSk (by decide) (by decide)).2 3 (by decide)⟩

end Bech32

end Agora
